import Mathlib

deriving instance DecidableEq for Except

/-!
Verification of the NamelistGUI core against its specification.

The development shallowly embeds the two subsystems of the repository:

* `namelists.py` — the namelist document model (`Variable`, `Namelist`,
  `InputFile.read` / `InputFile.write`), with files modelled as lists of
  lines and the filesystem as an association list from path to content;
* `diagnostic_outputs.py` — the source-mining engine
  (`_parse_quantity_code`, `_parse_line`, `_detexify`, `_ensure_texable`,
  `substring_indices`, `_find_quantities`, `_parse_diagnostic_files`).

Python strings are modelled as `List Char`; Python exceptions as
`Except`/error-option results.  Machine text operations (`strip`,
`lower`, `split`, `find`, slicing) are reproduced with Python's
semantics, including negative-index slicing where the source relies
on it.
-/

namespace NamelistGUI

/-- Python strings, modelled as lists of characters. -/
abbrev Str := List Char

/-- The characters Python's `str.strip()` removes (ASCII whitespace). -/
def pySpace (c : Char) : Bool :=
  c = ' ' || c = '\t' || c = '\n' || c = '\r' || c = Char.ofNat 11 || c = Char.ofNat 12

/-- Python `str.lstrip()`. -/
def lstrip (s : Str) : Str := s.dropWhile pySpace

/-- Python `str.rstrip()`. -/
def rstrip (s : Str) : Str := (s.reverse.dropWhile pySpace).reverse

/-- Python `str.strip()`. -/
def strip (s : Str) : Str := rstrip (lstrip s)

/-- Python `str.lower()` (ASCII case folding is all the sources use). -/
def lower (s : Str) : Str := s.map Char.toLower

/-- Python `str.startswith(c)` for a one-character prefix. -/
def pyStarts (c : Char) : Str → Bool
  | [] => false
  | x :: _ => x = c

/-- Python `str.endswith(c)` for a one-character suffix. -/
def pyEnds (c : Char) (s : Str) : Bool :=
  match s.getLast? with
  | none => false
  | some x => x = c

/-- Python `str.split(c, 1)`: split at the first occurrence of `c`;
`none` when `c` does not occur (Python would return a one-element list,
and the callers' `fields[1]` would then raise `IndexError`). -/
def splitFirst (c : Char) : Str → Option (Str × Str)
  | [] => none
  | x :: t =>
    if x = c then some ([], t)
    else (splitFirst c t).map (fun p => (x :: p.1, p.2))

/-- `",".join(values)`. -/
def joinComma (vs : List Str) : Str := List.intercalate [','] vs

/-- Python `sub in s` for a substring test. -/
def containsSub (sub : Str) : Str → Bool
  | [] => sub.isPrefixOf []
  | x :: t => sub.isPrefixOf (x :: t) || containsSub sub t

/-- First index of substring `sub` in `s` (`str.find` without a start). -/
def findSub (sub : Str) : Str → Option Nat
  | [] => if sub.isPrefixOf [] then some 0 else none
  | x :: t =>
    if sub.isPrefixOf (x :: t) then some 0
    else (findSub sub t).map (· + 1)

/-- Python `s.find(sub, i)`: first index `≥ i` of `sub`, as in
`substring_indices` of `diagnostic_outputs.py`. -/
def findSubFrom (s : Str) (sub : Str) (i : Nat) : Option Nat :=
  (findSub sub (s.drop i)).map (· + i)

/-- Python `s.split(sep)` for a multi-character separator, with fuel
(the separator is non-empty at every call site). -/
def splitOnSubGo (fuel : Nat) (sep : Str) (s : Str) : List Str :=
  match fuel with
  | 0 => [s]
  | fuel + 1 =>
    match findSub sep s with
    | none => [s]
    | some i => s.take i :: splitOnSubGo fuel sep (s.drop (i + sep.length))

/-- Python `s.split(sep)` for a non-empty, multi-character separator. -/
def splitOnSub (sep : Str) (s : Str) : List Str :=
  splitOnSubGo (s.length + 1) sep s

/-- Python `int(s)`: optional surrounding whitespace, optional sign,
then a non-empty digit string; `none` models `ValueError`. -/
def digitsVal (ds : Str) : Option Nat :=
  if ds ≠ [] && ds.all Char.isDigit then
    some (ds.foldl (fun a c => a * 10 + (c.toNat - 48)) 0)
  else none

def pyInt (s : Str) : Option Int :=
  match strip s with
  | '-' :: ds => (digitsVal ds).map (fun n => -(n : Int))
  | '+' :: ds => (digitsVal ds).map (fun n => (n : Int))
  | ds => (digitsVal ds).map (fun n => (n : Int))

/-- Normalisation of a Python slice index to a position in `0..n`. -/
def sliceIdx (n : Nat) (k : Int) : Nat :=
  (if k < 0 then max ((n : Int) + k) 0 else min k n).toNat

/-- Python slicing `s[i:j]` with possibly negative bounds, as used by
`_ensure_texable` (`entry[:lind]` with `lind = -1`, etc.). -/
def pySlice (s : Str) (i j : Int) : Str :=
  (s.take (sliceIdx s.length j)).drop (sliceIdx s.length i)

/-- Python `s.find(c)` for a single character: index or `-1`. -/
def pyFindChar (s : Str) (c : Char) : Int :=
  if c ∈ s then (s.indexOf c : Int) else -1

/-- Python `s.rfind(c)` for a single character: last index or `-1`. -/
def pyRfindChar (s : Str) (c : Char) : Int :=
  if c ∈ s then (s.length : Int) - 1 - (s.reverse.indexOf c : Int) else -1

end NamelistGUI

namespace NamelistGUI

/-! ## The namelist document model (`namelists.py`) -/

/-- One error type for all the modelled Python exceptions. -/
inductive Err where
  /-- `ValueError` from the indent checks in `Variable.write` / `Namelist.write`. -/
  | badIndent (indent : Str)
  /-- `ValueError` raised by `InputFile.write` when the target exists. -/
  | conflict (path : Str)
  /-- `IndexError` from `fields[1]` on a field line with no `=`. -/
  | missingEq (line : Str)
  /-- `KeyError` from `self.offsets[...]` on an undefined offset. -/
  | keyErr (key : Str)
  /-- `IndexError` from `vals[1]` / `split(...)[1]` style lookups. -/
  | idxErr
  /-- `ValueError` from `int(...)`. -/
  | valErr (s : Str)
deriving DecidableEq

/-- `class Variable`: one name/value(s) pair; the constructor lowercases
the name and stores the values verbatim. -/
structure Variable where
  name : Str
  value : List Str
deriving DecidableEq

/-- `Variable.__init__` (the non-list branch of the constructor merely
wraps a scalar into a one-element list, so values are a list here). -/
def mkVariable (name : Str) (value : List Str) : Variable :=
  ⟨lower name, value⟩

/-- `class Namelist`: a named collection of variables. -/
structure Namelist where
  name : Str
  -- Lean reserves the token `variables`, so the `variables` attribute is `vars`
  vars : List Variable
deriving DecidableEq

/-- `Namelist.__init__`. -/
def mkNamelist (name : Str) : Namelist :=
  ⟨lower name, []⟩

/-- Replace the variable at the first index whose name matches
(`names.index(var_name)` followed by assignment). -/
def replaceFirstVar (var : Variable) : List Variable → List Variable
  | [] => []
  | x :: t => if x.name = var.name then var :: t else x :: replaceFirstVar var t

/-- `Namelist.add_variable`: overwrite the existing entry in place when
`modify` is true and the name is present, otherwise append. -/
def addVariable (nml : Namelist) (var : Variable) (modify : Bool) : Namelist :=
  if modify && (nml.vars.map (·.name)).contains var.name then
    ⟨nml.name, replaceFirstVar var nml.vars⟩
  else
    ⟨nml.name, nml.vars ++ [var]⟩

/-- The `InputFile.namelists` ordered dictionary: an association list of
namelists keyed by their (lower-cased) name, in insertion order. -/
abbrev Document := List Namelist

/-- `self.namelists[name] = nml`: `OrderedDict` assignment replaces the
value of an existing key in place (keeping its position) and appends a
new key at the end. -/
def dictInsert : Document → Namelist → Document
  | [], nml => [nml]
  | x :: t, nml => if x.name = nml.name then nml :: t else x :: dictInsert t nml

/-- `self.namelists[name].add_variable(var)`: modify the value stored at
the first (only) entry with the given key. -/
def dictModify (name : Str) (f : Namelist → Namelist) : Document → Document
  | [] => []
  | x :: t => if x.name = name then f x :: t else x :: dictModify name f t

/-- The trailing-comment strip in `InputFile.read`:
`if "!" in line: line = line[:line.find("!")]`. -/
def cutComment (s : Str) : Str :=
  if '!' ∈ s then s.take (s.indexOf '!') else s

/-- The loop state of `InputFile.read`: the namelists parsed so far,
the `store_entry` flag and the current namelist name. -/
structure PState where
  nmls : Document
  store : Bool
  current : Option Str
deriving DecidableEq

/-- One iteration of the `for Line in mf` loop of `InputFile.read`. -/
def readLine (st : PState) (line0 : Str) : Except Err PState :=
  if strip line0 = [] then .ok st
  else if pyStarts '!' (lstrip line0) then .ok st
  else
    let line := lower (lstrip line0)
    let line := cutComment line
    let line := strip line
    if pyStarts '&' line then
      let name := strip (line.drop 1)
      .ok ⟨dictInsert st.nmls (mkNamelist name), true, some name⟩
    else if pyStarts '/' line then
      .ok ⟨st.nmls, false, none⟩
    else if st.store then
      match splitFirst '=' line with
      | none => .error (.missingEq line0)
      | some (lhs, rhs) =>
        let varName := strip lhs
        let vals := strip rhs
        let values := if ',' ∈ vals then (vals.splitOn ',').map strip else [vals]
        let var := mkVariable varName values
        let key := st.current.getD []
        .ok ⟨dictModify key (fun g => addVariable g var true) st.nmls, st.store, st.current⟩
    else .ok st

/-- The whole line loop of `InputFile.read`. -/
def readLines : List Str → PState → Except Err PState
  | [], st => .ok st
  | l :: rest, st =>
    match readLine st l with
    | .error e => .error e
    | .ok st1 => readLines rest st1

/-- `InputFile.read` on a file given as its list of lines, starting from
the initial state (`store_entry = False`, `name = None`). -/
def parseDoc (lines : List Str) : Except Err Document :=
  (readLines lines ⟨[], false, none⟩).map (·.nmls)

/-- `Variable.write`: the produced line, or the indent configuration
error (the `value is None` guard is unreachable for list-valued data). -/
def varWrite (var : Variable) (indent : Str) : Except Err Str :=
  if strip indent ≠ [] then .error (.badIndent indent)
  else .ok (indent ++ var.name ++ [' ', '=', ' '] ++ joinComma var.value)

/-- The `for var in self.variables` loop of `Namelist.write`. -/
def varWriteAll (vs : List Variable) (indent : Str) : Except Err (List Str) :=
  match vs with
  | [] => .ok []
  | v :: t => do
    let l ← varWrite v indent
    let rest ← varWriteAll t indent
    .ok (l :: rest)

/-- `Namelist.write`: the produced lines `&name`, one line per variable,
then `/`; the indent check precedes any output. -/
def nmlWrite (nml : Namelist) (indent : Str) : Except Err (List Str) :=
  if strip indent ≠ [] then .error (.badIndent indent)
  else do
    let vlines ← varWriteAll nml.vars indent
    .ok (('&' :: nml.name) :: vlines ++ [['/']])

/-- The group loop of `InputFile.write`, collecting each namelist's lines. -/
def nmlWriteAll (nmls : Document) (indent : Str) : Except Err (List (List Str)) :=
  match nmls with
  | [] => .ok []
  | g :: t => do
    let ls ← nmlWrite g indent
    let rest ← nmlWriteAll t indent
    .ok (ls :: rest)

/-- The full text `InputFile.write` produces for a document: each
namelist's lines followed by the separating blank line. -/
def serializeLines (nmls : Document) (indent : Str) : Except Err (List Str) := do
  let gs ← nmlWriteAll nmls indent
  .ok (gs.map (fun ls => ls ++ [[]])).flatten

/-- The filesystem: an association of path to file content (lines). -/
abbrev FS := List (Str × List Str)

def isfile (fs : FS) (p : Str) : Bool := (fs.lookup p).isSome

/-- Writing (or truncating) the file at a path. -/
def fsSet (p : Str) (c : List Str) : FS → FS
  | [] => [(p, c)]
  | (q, d) :: t => if q = p then (p, c) :: t else (q, d) :: fsSet p c t

/-- The body of `InputFile.write` after the target is chosen: `open`
truncates the target, then the namelists are written one by one; an
exception part-way leaves the lines written so far in the file. -/
def writeAll (nmls : Document) (target : Str) (indent : Str) (fs : FS) :
    List Namelist → List Str → FS × Option Err
  | [], content => (fsSet target content fs, none)
  | g :: rest, content =>
    match nmlWrite g indent with
    | .error e => (fsSet target content fs, some e)
    | .ok ls => writeAll nmls target indent fs rest (content ++ ls ++ [[]])

/-- `InputFile.write`: the existence/overwrite check runs only when an
explicit `output` is passed; otherwise the instance's own filename is
used with no check.  Returns the final filesystem and the raised
exception, if any. -/
def inputFileWrite (nmls : Document) (filename : Str) (output : Option Str)
    (overwrite : Bool) (indent : Str) (fs : FS) : FS × Option Err :=
  match output with
  | some out =>
    if isfile fs out && !overwrite then (fs, some (.conflict out))
    else writeAll nmls out indent fs nmls []
  | none => writeAll nmls filename indent fs nmls []

end NamelistGUI

namespace NamelistGUI

/-! ## The source-mining engine (`diagnostic_outputs.py`) -/

/-- The `self.offsets` dictionary: offset name to resolved integer, in
insertion order. -/
abbrev Offsets := List (Str × Int)

/-- The substring `"off"` that marks offset identifiers. -/
def offMark : Str := ['o', 'f', 'f']

/-- `name → value` is recorded only `if name not in self.offsets.keys()`
(first definition wins). -/
def insertIfAbsent (tbl : Offsets) (name : Str) (v : Int) : Offsets :=
  if (tbl.lookup name).isSome then tbl else tbl ++ [(name, v)]

/-- The shared body of cases 2 and 3 of `_parse_quantity_code`:
`vals = code.split("+"); off = self.offsets[vals[0].strip()];
val = int(vals[1].strip())`.  The offset lookup happens before
`vals[1]` is touched, exactly as in the source. -/
def offsetAdd (code : Str) (tbl : Offsets) : Except Err Int :=
  let vals := code.splitOn '+'
  let o := strip (vals.headD [])
  match tbl.lookup o with
  | none => .error (.keyErr o)
  | some off =>
    match vals with
    | _ :: r :: _ =>
      match pyInt (strip r) with
      | none => .error (.valErr r)
      | some v => .ok (off + v)
    | _ => .error .idxErr

/-- `OutputQuantities._parse_quantity_code`: resolve the right-hand side
of a `name = code` declaration, updating the offset table. -/
def parseQuantityCode (name code : Str) (tbl : Offsets) : Except Err (Int × Offsets) :=
  if containsSub offMark name && !containsSub offMark code then
    -- case: "offset = number"
    match pyInt code with
    | none => .error (.valErr code)
    | some v => .ok (v, insertIfAbsent tbl name v)
  else if !containsSub offMark name && containsSub offMark code then
    -- case: "name = offset + number"
    (offsetAdd code tbl).map (fun v => (v, tbl))
  else if containsSub offMark name && containsSub offMark code then
    -- case: "offset = offset + number"
    (offsetAdd code tbl).map (fun v => (v, insertIfAbsent tbl name v))
  else
    -- case: "name = number"
    match pyInt code with
    | none => .error (.valErr code)
    | some v => .ok (v, tbl)

/-- The `"::"` separator of declaration lines. -/
def colcol : Str := [':', ':']

/-- The `":tex:"` marker separating a formula from the rest of a comment. -/
def texSep : Str := [':', 't', 'e', 'x', ':']

/-- The opening and closing curly braces. -/
def lbrace : Char := Char.ofNat 123

def rbrace : Char := Char.ofNat 125

/-- Python `s.replace(c, repl)` for a one-character pattern. -/
def replaceChar (c : Char) (repl : Str) (s : Str) : Str :=
  s.flatMap (fun x => if x = c then repl else [x])

/-- `_detexify`: escape the typesetting-unsafe characters of a
non-math-mode fragment, in the source's replacement order. -/
def detexify (line : Str) : Str :=
  let line := replaceChar lbrace ['\\', lbrace] line
  let line := replaceChar rbrace ['\\', rbrace] line
  let line := replaceChar '^' ['\\', '^', lbrace, rbrace] line
  let line := replaceChar '_' ['\\', '_'] line
  let line := replaceChar '<' ['$', '<', '$'] line
  let line := replaceChar '>' ['$', '>', '$'] line
  line

/-- The body of `_ensure_texable` once `entry = line.split(sep)[1].strip()`
has been computed: repair an odd `$` count, then escape the parts outside
the outermost `$...$` span via Python's (possibly negative) slicing. -/
def fixTexEntry (entry : Str) : Str :=
  let entry := if entry.count '$' % 2 = 1 then entry ++ ['$'] else entry
  if pyStarts '$' (lstrip entry) && pyEnds '$' (rstrip entry) then entry
  else
    let lind := pyFindChar entry '$'
    let rind := pyRfindChar entry '$'
    let first := detexify (pySlice entry 0 lind)
    let second := detexify (pySlice entry (rind + 1) entry.length)
    first ++ pySlice entry lind (rind + 1) ++ second

/-- `_ensure_texable line sep` (the `verbose` flag only prints). -/
def ensureTexable (line : Str) (sep : Str) : Str :=
  fixTexEntry (strip ((splitOnSub sep line).getD 1 []))

/-- `OutputQuantities._parse_line`: parse one declaration line of the
form `integer, parameter :: name = code ! comment`, threading the
offset table; `none` means the line is skipped. -/
def parseLine (line0 : Str) (tbl : Offsets) :
    Except Err (Option (Str × Int × Str) × Offsets) :=
  let line := lower line0
  if pyStarts '!' (lstrip line) || strip line = [] then .ok (none, tbl)
  else if containsSub ['i','n','t','e','g','e','r'] line
      && containsSub ['p','a','r','a','m','e','t','e','r'] line
      && '=' ∈ line then
    let line := strip line
    let bigLine := strip line0
    match splitOnSub colcol line with
    | _ :: quant :: _ =>
      let inds := quant.splitOn '!'
      let quantity := inds.headD []
      let comment :=
        if inds.length = 1 then []
        else
          let q2 := (splitOnSub colcol bigLine).getD 1 []
          strip ((q2.splitOn '!').getD 1 [])
      match quantity.splitOn '=' with
      | nm :: cd :: _ =>
        let name := strip nm
        let code := strip cd
        match parseQuantityCode name code tbl with
        | .error e => .error e
        | .ok (codeV, tbl) =>
          let comment :=
            if !containsSub offMark name && containsSub texSep comment then
              ensureTexable comment texSep
            else comment
          .ok (some (name, codeV, comment), tbl)
      | _ => .error .idxErr
    | _ => .error .idxErr
  else .ok (none, tbl)

/-- `class Quantity`: the constructor lowercases the name. -/
structure Quantity where
  code : Int
  name : Str
  tex : Str
deriving DecidableEq

def mkQuantity (code : Int) (name : Str) (tex : Str) : Quantity :=
  ⟨code, lower name, tex⟩

/-- `substring_indices`: all indices of `substr` in `line`, collected by
scanning `line.find(substr, i)` for every start `i` and skipping
indices already recorded. -/
def substringIndices (line : Str) (substr : Str) : List Nat :=
  (List.range line.length).foldl
    (fun acc i =>
      match findSubFrom line substr i with
      | some ind => if ind ∈ acc then acc else acc ++ [ind]
      | none => acc)
    []

/-- The fixed call-site pattern of `_find_quantities`. -/
def funcName : Str := "compute_quantity".toList

/-- `OutputQuantities._find_quantities`: extract the argument of every
`compute_quantity(...)` call site on the line.  `list(set(...))` keeps
one copy of each extracted token in unspecified order; the model keeps
one copy of each. -/
def findQuantities (line : Str) : Option (List Str) :=
  if !containsSub funcName line then none
  else
    let length := funcName.length
    let quants := (substringIndices line funcName).map (fun ind =>
      let start := ind + length
      let op := pyFindChar (line.drop start) '('
      let cp := pyFindChar (line.drop start) ')'
      strip (pySlice line ((start : Int) + op + 1) ((start : Int) + cp)))
    some quants.dedup

/-- The per-file inner loop of `_parse_diagnostic_files`: collect the
referenced quantity names of one file, skipping comment/blank lines
(the `startswith("!")` test is on the unstripped line, as in the source). -/
def fileQuantNames (lines : List Str) : List Str :=
  lines.foldl
    (fun dq line0 =>
      let line := lower line0
      if pyStarts '!' line || strip line = [] then dq
      else
        match findQuantities line with
        | none => dq
        | some qs => qs.foldl (fun dq q => if q ∈ dq then dq else dq ++ [q]) dq)
    []

/-- The category table `self.diagnostic_types`, in key insertion order. -/
abbrev DiagTypes := List (Str × List Quantity)

def dtInsert (dt : DiagTypes) (k : Str) (v : List Quantity) : DiagTypes :=
  match dt with
  | [] => [(k, v)]
  | (q, d) :: t => if q = k then (k, v) :: t else (q, d) :: dtInsert t k v

/-- Stable insertion of a quantity after every element whose code is
not greater (the stable-sort building block). -/
def insertSorted (q : Quantity) : List Quantity → List Quantity
  | [] => [q]
  | x :: t => if x.code ≤ q.code then x :: insertSorted q t else q :: x :: t

/-- Python's `list.sort(key=lambda x: x.code)`: a stable ascending sort
by quantity code (a stable sort is determined by its key, so stable
insertion sort produces exactly the source's output). -/
def sortByCode (l : List Quantity) : List Quantity :=
  l.foldl (fun acc q => insertSorted q acc) []

/-- The files `_parse_diagnostic_files` ignores. -/
def ignoredFiles : List Str :=
  ["diagnostics_base.f90".toList, "diagnostics_interface.f90".toList,
   "diagnostics_adotgradb.f90".toList, "diagnostics_mean_correction.f90".toList]

/-- Delete the first file whose lowered name matches (the
`l_files.index(x)` / `del files[ind]` dance of the source). -/
def removeFirstFile (x : Str) : List (Str × List Str) → List (Str × List Str)
  | [] => []
  | f :: t => if lower f.1 = x then t else f :: removeFirstFile x t

def removeIgnored (files : List (Str × List Str)) : List (Str × List Str) :=
  ignoredFiles.foldl
    (fun fs x => if fs.any (fun f => lower f.1 = x) then removeFirstFile x fs else fs)
    files

/-- Processing of one diagnostic file: derive the category from the file
name (`basename.split("_", 1)[1]` minus the `.F90` suffix; a name with
no underscore raises `IndexError`), then merge the catalog quantities
whose names the file references into that category. -/
def processDiagFile (quantities : List Quantity) (dt : DiagTypes)
    (f : Str × List Str) : Except Err DiagTypes :=
  let diagQuants := (fileQuantNames f.2).dedup
  match splitFirst '_' f.1 with
  | none => .error .idxErr
  | some (_, restName) =>
    let diagType := restName.take (restName.length - 4)
    let dt := if (dt.lookup diagType).isSome then dt else dtInsert dt diagType []
    let existing := (dt.lookup diagType).getD []
    let qnames := existing.map (·.name)
    let quantityNames := quantities.map (·.name)
    let toAdd := diagQuants.filterMap (fun q =>
      if q ∉ quantityNames then none
      else if q ∈ qnames then none
      else quantities.find? (fun Q => Q.name = q))
    .ok (dtInsert dt diagType (existing ++ toAdd))

/-- `OutputQuantities._parse_diagnostic_files`, over a directory listing
given as (file name, file lines) pairs: filter names containing
`diagnostics`, drop the ignore list, classify every remaining file,
delete empty categories, and sort each category by quantity code. -/
def parseDiagnosticFiles (quantities : List Quantity)
    (listing : List (Str × List Str)) : Except Err DiagTypes :=
  match (removeIgnored
      (listing.filter (fun f =>
        containsSub ['d','i','a','g','n','o','s','t','i','c','s'] (lower f.1)))).foldlM
      (processDiagFile quantities) [] with
  | .error e => .error e
  | .ok dt =>
    .ok (((dt.filter (fun kv => kv.2.length ≠ 0)).map (fun kv => (kv.1, sortByCode kv.2))))

end NamelistGUI

namespace NamelistGUI

/-! ## Auxiliary definitions used by the statements of the claims -/

/-- A string with no surrounding whitespace (both strips fix it). -/
def stripInv (s : Str) : Prop := lstrip s = s ∧ rstrip s = s

/-- A token that survives the line normalisation of `InputFile.read`:
already lower-case, no surrounding whitespace, free of the comment
marker, and free of line breaks (so it stays on one written line). -/
def cleanTok (s : Str) : Prop :=
  lower s = s ∧ stripInv s ∧ '!' ∉ s ∧ '\n' ∉ s ∧ '\r' ∉ s

/-- A `Variable` whose serialized field line parses back unchanged:
a clean, non-empty name that contains no `=` and does not begin with a
group marker, and a non-empty list of clean, comma-free values. -/
def WFVar (v : Variable) : Prop :=
  cleanTok v.name ∧ v.name ≠ [] ∧ '=' ∉ v.name ∧
  pyStarts '&' v.name = false ∧ pyStarts '/' v.name = false ∧
  v.value ≠ [] ∧ ∀ s ∈ v.value, cleanTok s ∧ ',' ∉ s

/-- A `Namelist` with a clean name and name-unique well-formed variables. -/
def WFNml (g : Namelist) : Prop :=
  cleanTok g.name ∧ (g.vars.map (·.name)).Nodup ∧ ∀ v ∈ g.vars, WFVar v

/-- A `Document` with name-unique well-formed namelists. -/
def WFDoc (d : Document) : Prop :=
  (d.map (·.name)).Nodup ∧ ∀ g ∈ d, WFNml g

instance : DecidablePred stripInv := fun s => by unfold stripInv; infer_instance

instance : DecidablePred cleanTok := fun s => by unfold cleanTok; infer_instance

instance : DecidablePred WFVar := fun v => by unfold WFVar; infer_instance

instance : DecidablePred WFNml := fun g => by unfold WFNml; infer_instance

instance : DecidablePred WFDoc := fun d => by unfold WFDoc; infer_instance

/-- The field line `Variable.write` emits for the indent `" "`. -/
def vline (v : Variable) : Str :=
  ' ' :: (v.name ++ (' ' :: '=' :: ' ' :: joinComma v.value))

/-- The lines one namelist contributes to a written file (including the
separating blank line `InputFile.write` adds). -/
def groupLines (g : Namelist) : List Str :=
  ('&' :: g.name) :: (g.vars.map vline ++ [['/'], []])

/-- The lines of a whole written document. -/
def docLines (d : Document) : List Str :=
  (d.map groupLines).flatten

/-- The sanitizer contract in the words of the specification: repair an
odd `$` count with a trailing `$`; when the (trimmed) result does not
both start and end with `$`, escape the prefix before the first `$` and
the suffix after the last `$` and keep the math body between the
delimiters untouched. -/
def specSanitize (entry : Str) : Str :=
  let e := if entry.count '$' % 2 = 1 then entry ++ ['$'] else entry
  if pyStarts '$' (lstrip e) && pyEnds '$' (rstrip e) then e
  else
    let pre := e.takeWhile (fun c => c ≠ '$')
    let suf := (e.reverse.takeWhile (fun c => c ≠ '$')).reverse
    let body := (e.drop pre.length).take (e.length - pre.length - suf.length)
    detexify pre ++ body ++ detexify suf

/-- All decompositions of a string into `prefix ++ body ++ suffix`. -/
def splits3 (l : Str) : List (Str × Str × Str) :=
  (List.range (l.length + 1)).flatMap (fun i =>
    (List.range (l.length + 1 - i)).map (fun j =>
      (l.take i, (l.drop i).take j, (l.drop i).drop j)))

/-- The declaration chain of the specification's offset-chain test. -/
def offsetChainLines : List Str :=
  ["integer, parameter :: offA = 10".toList,
   "integer, parameter :: qX = offA + 5".toList,
   "integer, parameter :: offB = offA + 100".toList,
   "integer, parameter :: qY = offB + 1".toList]

/-- Feed declaration lines through `_parse_line` in file order, as
`_parse_basefile` does, collecting the parsed triples and the final
offset table. -/
def runDeclLines (lines : List Str) : Except Err (List (Str × Int × Str) × Offsets) :=
  lines.foldlM
    (fun acc l => do
      let (r, tbl) ← parseLine l acc.2
      pure (acc.1 ++ r.toList, tbl))
    ([], [])

end NamelistGUI

namespace NamelistGUI

/-! ## General lemmas -/

theorem varWrite_ok {indent : Str} (v : Variable) (h : strip indent = []) :
    varWrite v indent = .ok (indent ++ v.name ++ [' ', '=', ' '] ++ joinComma v.value) := by
  simp [varWrite, h]

theorem varWriteAll_ok {indent : Str} (h : strip indent = []) (vs : List Variable) :
    varWriteAll vs indent =
      .ok (vs.map (fun v => indent ++ v.name ++ [' ', '=', ' '] ++ joinComma v.value)) := by
  induction vs with
  | nil => rfl
  | cons v t ih => simp [varWriteAll, varWrite_ok v h, ih, Bind.bind, Except.bind]

theorem nmlWrite_ok {indent : Str} (g : Namelist) (h : strip indent = []) :
    nmlWrite g indent =
      .ok (('&' :: g.name) ::
            g.vars.map (fun v => indent ++ v.name ++ [' ', '=', ' '] ++ joinComma v.value) ++
            [['/']]) := by
  simp [nmlWrite, h, varWriteAll_ok h, Bind.bind, Except.bind]

theorem nmlWrite_err {indent : Str} (g : Namelist) (h : strip indent ≠ []) :
    nmlWrite g indent = .error (.badIndent indent) := by
  simp [nmlWrite, h]

theorem writeAll_err {nmls : Document} {target indent : Str} {fs : FS}
    {e : Err} :
    ∀ (rest : List Namelist) (content : List Str),
      (writeAll nmls target indent fs rest content).2 = some e →
      e = .badIndent indent := by
  intro rest
  induction rest with
  | nil => intro content h; simp [writeAll] at h
  | cons g t ih =>
    intro content h
    by_cases hi : strip indent = []
    · rw [writeAll, nmlWrite_ok g hi] at h
      exact ih _ h
    · rw [writeAll, nmlWrite_err g hi] at h
      simp at h
      exact h.symm

theorem writeAll_badIndent {nmls : Document} {target indent : Str} {fs : FS}
    (h : strip indent ≠ []) (g : Namelist) (rest : List Namelist) (content : List Str) :
    writeAll nmls target indent fs (g :: rest) content =
      (fsSet target content fs, some (.badIndent indent)) := by
  rw [writeAll, nmlWrite_err g h]

/-! ## C2: write-conflict protection -/

/-- **C2 (amended).**  When an explicit `output` path is passed,
`InputFile.write` with an existing target and `overwrite=False` raises
the write-conflict error and leaves the filesystem (hence the existing
file's bytes) unchanged.  When no explicit output is passed — the
default of writing back to the path the Document was read from — the
existence check is skipped entirely: no conflict error can arise and
the target is overwritten unconditionally. -/
theorem C2_write_conflict_amended :
    (∀ (nmls : Document) (filename indent : Str) (fs : FS) (out : Str),
      isfile fs out = true →
      inputFileWrite nmls filename (some out) false indent fs = (fs, some (.conflict out))) ∧
    (∀ (nmls : Document) (filename indent : Str) (fs : FS) (ow : Bool) (p : Str),
      (inputFileWrite nmls filename none ow indent fs).2 ≠ some (.conflict p)) := by
  constructor
  · intro nmls filename indent fs out h
    simp [inputFileWrite, h]
  · intro nmls filename indent fs ow p hc
    have := @writeAll_err nmls filename indent fs _ nmls []
      (by simpa [inputFileWrite] using hc)
    simp at this

/-- **C2 witness.** -/
theorem C2_write_conflict_witness :
    inputFileWrite [⟨['g'], []⟩] ['f'] (some ['f']) false [' ']
        [(['f'], [['o', 'l', 'd']])] =
      ([(['f'], [['o', 'l', 'd']])], some (.conflict ['f'])) ∧
    (inputFileWrite [⟨['g'], []⟩] ['f'] none false [' ']
        [(['f'], [['o', 'l', 'd']])]).2 ≠ some (.conflict ['f']) :=
  ⟨C2_write_conflict_amended.1 [⟨['g'], []⟩] ['f'] [' '] [(['f'], [['o', 'l', 'd']])] ['f']
      (by decide),
   C2_write_conflict_amended.2 [⟨['g'], []⟩] ['f'] [' '] [(['f'], [['o', 'l', 'd']])] false ['f']⟩

/-- **C2 counterexample.**  The claim asserts the protection for *every*
way of designating the target, including the default write-back; but a
default write-back (`output=None`) onto an existing file with
`overwrite=False` succeeds silently and replaces the file's bytes. -/
theorem C2_write_conflict_counterexample :
    inputFileWrite [⟨['g'], []⟩] ['f'] none false [' ']
        [(['f'], [['o', 'l', 'd']])] =
      ([(['f'], [['&', 'g'], ['/'], []])], none) := by decide

/-! ## C3: structural errors during parse -/

/-- **C3 (amended).**  `InputFile.read` accepts all three structural
irregularities silently instead of rejecting them: a group-open marker
while a group is open simply starts the next group (both are kept), a
group-close marker while no group is open is a no-op, and end of input
while a group is still open yields the document parsed so far. -/
theorem C3_structural_amended :
    parseDoc [['/']] = .ok [] ∧
    parseDoc [['&', 'a'], ['&', 'b'], ['/']] = .ok [⟨['a'], []⟩, ⟨['b'], []⟩] ∧
    parseDoc [['&', 'a']] = .ok [⟨['a'], []⟩] := by decide

/-- **C3 counterexample.**  A group-close marker with no open group is
claimed to be rejected with no resulting Document; the parser instead
returns an (empty) Document with no error. -/
theorem C3_structural_counterexample :
    parseDoc [['/']] = .ok ([] : Document) := by decide

/-! ## C4: offset chains -/

/-- **C4 (confirmed).**  The declaration chain `offA = 10`,
`qX = offA + 5`, `offB = offA + 100`, `qY = offB + 1` resolves to
`qX = 15` and `qY = 111` with the offset table holding exactly
`offa ↦ 10, offb ↦ 110`; and in general a declaration whose name and
expression are both offset-marked resolves to the referenced offset's
value plus the literal and records the new name as an offset unless it
is already present (first definition wins). -/
theorem C4_offset_chain :
    (runDeclLines offsetChainLines =
      .ok ([("offa".toList, 10, []), ("qx".toList, 15, []),
            ("offb".toList, 110, []), ("qy".toList, 111, [])],
           [("offa".toList, 10), ("offb".toList, 110)])) ∧
    (∀ (name code : Str) (tbl : Offsets) (o r : Str) (v n : Int),
      containsSub offMark name = true →
      containsSub offMark code = true →
      code.splitOn '+' = [o, r] →
      tbl.lookup (strip o) = some v →
      pyInt (strip r) = some n →
      parseQuantityCode name code tbl =
        .ok (v + n, if (tbl.lookup name).isSome then tbl else tbl ++ [(name, v + n)])) := by
  constructor
  · decide
  · intro name code tbl o r v n h1 h2 h3 h4 h5
    simp [parseQuantityCode, h1, h2, offsetAdd, h3, h4, h5, insertIfAbsent, Except.map]

/-- **C4 witness.** -/
theorem C4_offset_chain_witness :
    parseQuantityCode "offb".toList "offa + 100".toList [("offa".toList, 10)] =
      .ok (110, [("offa".toList, 10), ("offb".toList, 110)]) := by
  have := C4_offset_chain.2 "offb".toList "offa + 100".toList
    [("offa".toList, 10)] "offa ".toList " 100".toList 10 100
    (by decide) (by decide) (by decide) (by decide) (by decide)
  simpa using this

/-! ## C5: unresolved offset references -/

/-- **C5 (confirmed).**  When a declaration's expression is
offset-marked and the referenced offset name has not been recorded by
an earlier declaration, `_parse_quantity_code` fails with the
key-lookup error (regardless of whether the declared name is itself
offset-marked), and `_parse_line` propagates that failure, aborting the
parse; no default or zero value is produced. -/
theorem C5_unresolved_offset :
    (∀ (name code : Str) (tbl : Offsets),
      containsSub offMark code = true →
      tbl.lookup (strip ((code.splitOn '+').headD [])) = none →
      parseQuantityCode name code tbl =
        .error (.keyErr (strip ((code.splitOn '+').headD [])))) ∧
    (parseLine "integer, parameter :: x = offq + 1".toList [] =
      .error (.keyErr "offq".toList)) := by
  constructor
  · intro name code tbl h1 h2
    simp only [List.headD_eq_head?_getD] at h2
    by_cases hn : containsSub offMark name = true
    · simp [parseQuantityCode, h1, hn, offsetAdd, h2, Except.map, List.headD_eq_head?_getD]
    · simp [parseQuantityCode, h1, hn, offsetAdd, h2, Except.map, List.headD_eq_head?_getD]
  · decide

/-- **C5 witness.** -/
theorem C5_unresolved_offset_witness :
    parseQuantityCode ['x'] "offq + 1".toList [] = .error (.keyErr "offq".toList) := by
  have := C5_unresolved_offset.1 ['x'] "offq + 1".toList [] (by decide) (by decide)
  simpa using this

/-! ## C8: indent configuration errors -/

/-- **C8 (amended).**  A single-group write (`Namelist.write`) with a
non-whitespace indent raises the configuration error before emitting
any line.  A whole-document write (`InputFile.write`), however, opens —
and thereby truncates — the target first: with at least one group the
configuration error is raised while the first group is written, the
target having already been truncated to empty; with no groups at all no
error is raised and the target is simply truncated. -/
theorem C8_indent_amended :
    (∀ (g : Namelist) (indent : Str), strip indent ≠ [] →
      nmlWrite g indent = .error (.badIndent indent)) ∧
    (∀ (g : Namelist) (rest : List Namelist) (filename indent : Str) (fs : FS) (ow : Bool),
      strip indent ≠ [] →
      inputFileWrite (g :: rest) filename none ow indent fs =
        (fsSet filename [] fs, some (.badIndent indent))) ∧
    (∀ (filename indent : Str) (fs : FS) (ow : Bool),
      inputFileWrite [] filename none ow indent fs = (fsSet filename [] fs, none)) := by
  refine ⟨fun g indent h => nmlWrite_err g h, fun g rest filename indent fs ow h => ?_, ?_⟩
  · simp [inputFileWrite, writeAll_badIndent h]
  · intro filename indent fs ow
    simp [inputFileWrite, writeAll]

/-- **C8 witness.** -/
theorem C8_indent_witness :
    nmlWrite ⟨['g'], []⟩ ['x'] = .error (.badIndent ['x']) ∧
    inputFileWrite [⟨['g'], []⟩] ['f'] none false ['x'] [(['f'], [['o', 'l', 'd']])] =
      (fsSet ['f'] [] [(['f'], [['o', 'l', 'd']])], some (.badIndent ['x'])) :=
  ⟨C8_indent_amended.1 ⟨['g'], []⟩ ['x'] (by decide),
   C8_indent_amended.2.1 ⟨['g'], []⟩ [] ['f'] ['x'] [(['f'], [['o', 'l', 'd']])] false (by decide)⟩

/-- **C8 counterexample.**  The claim says the error precedes any
opening or truncation of the target for whole-document writes; in fact
the whole-document write truncates the existing file (its bytes are
lost) and only then raises the indent error. -/
theorem C8_indent_counterexample :
    inputFileWrite [⟨['g'], []⟩] ['f'] none false ['x'] [(['f'], [['o', 'l', 'd']])] =
      ([(['f'], [])], some (.badIndent ['x'])) := by decide

end NamelistGUI

namespace NamelistGUI

/-! ## Membership and normalisation lemmas for the parser -/

theorem mem_lstrip {x : Char} {s : Str} (h : x ∈ lstrip s) : x ∈ s :=
  (List.dropWhile_suffix pySpace).mem h

theorem mem_rstrip {x : Char} {s : Str} (h : x ∈ rstrip s) : x ∈ s := by
  unfold rstrip at h
  rw [List.mem_reverse] at h
  exact List.mem_reverse.1 ((List.dropWhile_suffix pySpace).mem h)

theorem mem_strip {x : Char} {s : Str} (h : x ∈ strip s) : x ∈ s :=
  mem_lstrip (mem_rstrip h)

theorem toNat_ofNat_of_valid {n : Nat} (hn : n.isValidChar) :
    (Char.ofNat n).toNat = n := by
  simp [Char.ofNat, hn, Char.ofNatAux, Char.toNat, UInt32.toNat]

theorem toLower_eq_bang {c : Char} (h : c.toLower = '!') : c = '!' := by
  unfold Char.toLower at h
  simp only [] at h
  by_cases hc : c.toNat ≥ 65 ∧ c.toNat ≤ 90
  · rw [if_pos hc] at h
    exfalso
    have hv : (c.toNat + 32).isValidChar := Or.inl (by omega)
    have h2 := congrArg Char.toNat h
    rw [toNat_ofNat_of_valid hv] at h2
    have hb : ('!').toNat = 33 := rfl
    rw [hb] at h2
    omega
  · rwa [if_neg hc] at h

theorem toLower_toLower (y : Char) : y.toLower.toLower = y.toLower := by
  by_cases hc : y.toNat ≥ 65 ∧ y.toNat ≤ 90
  · have h1 : y.toLower = Char.ofNat (y.toNat + 32) := by
      unfold Char.toLower
      simp only []
      rw [if_pos hc]
    have hv : (y.toNat + 32).isValidChar := Or.inl (by omega)
    have ht : (Char.ofNat (y.toNat + 32)).toNat = y.toNat + 32 := toNat_ofNat_of_valid hv
    rw [h1]
    unfold Char.toLower
    simp only []
    rw [if_neg]
    rw [ht]
    omega
  · have h1 : y.toLower = y := by
      unfold Char.toLower
      simp only []
      rw [if_neg hc]
    rw [h1, h1]

theorem lower_lower (s : Str) : lower (lower s) = lower s := by
  simp [lower, List.map_map, Function.comp_def, toLower_toLower]

theorem bang_not_mem_lower {s : Str} (h : '!' ∉ s) : '!' ∉ lower s := by
  intro hm
  rcases List.mem_map.1 hm with ⟨c, hc, he⟩
  exact h (toLower_eq_bang he ▸ hc)

theorem take_indexOf_eq_takeWhile (c : Char) (l : Str) :
    l.take (l.indexOf c) = l.takeWhile (fun x => x ≠ c) := by
  induction l with
  | nil => rfl
  | cons x t ih =>
    by_cases hx : x = c
    · simp [List.indexOf_cons, hx, List.takeWhile_cons]
    · have hbe : (x == c) = false := by simp [hx]
      simp [List.indexOf_cons, hbe, List.takeWhile_cons, hx, ih]

theorem bang_not_mem_cutComment (s : Str) : '!' ∉ cutComment s := by
  unfold cutComment
  split
  · rw [take_indexOf_eq_takeWhile]
    intro hm
    have := List.mem_takeWhile_imp hm
    simp at this
  · next h => exact h

theorem splitFirst_eq {c : Char} :
    ∀ {l a b : Str}, splitFirst c l = some (a, b) → l = a ++ c :: b := by
  intro l
  induction l with
  | nil => intro a b h; simp [splitFirst] at h
  | cons x t ih =>
    intro a b h
    rw [splitFirst] at h
    by_cases hx : x = c
    · simp only [if_pos hx, Option.some.injEq, Prod.mk.injEq] at h
      obtain ⟨ha, hb⟩ := h
      subst ha
      subst hb
      simp [hx]
    · rw [if_neg hx] at h
      rcases Option.map_eq_some'.1 h with ⟨p, hp, hfp⟩
      obtain ⟨a2, b2⟩ := p
      simp only [Prod.mk.injEq] at hfp
      obtain ⟨ha, hb⟩ := hfp
      subst ha
      subst hb
      simpa using congrArg (x :: ·) (ih hp)

theorem mem_intercalate_of_mem {x : Char} {p : Str} {sep : Str} :
    ∀ {ls : List Str}, p ∈ ls → x ∈ p → x ∈ sep.intercalate ls := by
  intro ls
  induction ls with
  | nil => intro h; simp at h
  | cons a t ih =>
    intro hp hx
    cases t with
    | nil =>
      simp at hp
      subst hp
      simpa [List.intercalate, List.intersperse] using hx
    | cons b t2 =>
      have hcc : sep.intercalate (a :: b :: t2) = a ++ sep ++ sep.intercalate (b :: t2) := by
        simp [List.intercalate, List.intersperse]
      rw [hcc]
      rcases List.mem_cons.1 hp with h1 | h2
      · subst h1; simp [hx]
      · simp [ih h2 hx]

theorem mem_of_mem_splitOn {x : Char} {c : Char} {p s : Str}
    (hp : p ∈ s.splitOn c) (hx : x ∈ p) : x ∈ s := by
  have h := List.intercalate_splitOn s c
  rw [← h]
  exact mem_intercalate_of_mem hp hx

/-! ## Structure of a single `InputFile.read` step -/

/-- Any successful `readLine` step leaves the namelists unchanged,
performs the ordered-dictionary insertion of a fresh empty namelist, or
adds one comment-free variable to the currently open namelist. -/
theorem readLine_shape {st st' : PState} {l : Str} (h : readLine st l = .ok st') :
    st'.nmls = st.nmls ∨
    (∃ name, lower name = name ∧
      st'.nmls = dictInsert st.nmls (mkNamelist name)) ∨
    (∃ key var, ('!' ∉ var.name ∧ ∀ s ∈ var.value, '!' ∉ s) ∧
      st'.nmls = dictModify key (fun g => addVariable g var true) st.nmls) := by
  simp only [readLine] at h
  split at h
  · left; cases h; rfl
  · split at h
    · left; cases h; rfl
    · split at h
      · right; left
        refine ⟨strip ((strip (cutComment (lower (lstrip l)))).drop 1), ?_, by cases h; rfl⟩
        · generalize hz : strip (cutComment (lower (lstrip l))) = z
          have hsub : ∀ x ∈ (strip (z.drop 1)), x ∈ lower (lstrip l) := by
            intro x hx
            have h1 : x ∈ z.drop 1 := mem_strip hx
            have h2 : x ∈ z := by
              have : (z.drop 1).Sublist z := List.drop_sublist 1 z
              exact this.mem h1
            rw [← hz] at h2
            have h3 : x ∈ cutComment (lower (lstrip l)) := mem_strip h2
            unfold cutComment at h3
            split at h3
            · exact (List.take_sublist _ _).mem h3
            · exact h3
          apply List.map_congr_left ?_ |>.trans (List.map_id _)
          intro x hx
          have := hsub x hx
          rcases List.mem_map.1 this with ⟨y, _, hy⟩
          rw [← hy]
          exact toLower_toLower y
      · split at h
        · left; cases h; rfl
        · split at h
          · split at h
            · exact absurd h (by simp)
            · next lhs rhs heq =>
              right; right
              refine ⟨st.current.getD [],
                mkVariable (strip lhs)
                  (if ',' ∈ strip rhs then ((strip rhs).splitOn ',').map strip
                   else [strip rhs]), ⟨?_, ?_⟩, by cases h; rfl⟩
              · -- the variable name is free of the comment marker
                have hline : '!' ∉ strip (cutComment (lower (lstrip l))) := by
                  intro hm
                  exact bang_not_mem_cutComment _ (mem_strip hm)
                have hl : '!' ∉ lhs := by
                  intro hm
                  apply hline
                  rw [splitFirst_eq heq]
                  simp [hm]
                exact bang_not_mem_lower (fun hm => hl (mem_strip hm))
              · -- every stored value is free of the comment marker
                have hline : '!' ∉ strip (cutComment (lower (lstrip l))) := by
                  intro hm
                  exact bang_not_mem_cutComment _ (mem_strip hm)
                have hr : '!' ∉ rhs := by
                  intro hm
                  apply hline
                  rw [splitFirst_eq heq]
                  simp [hm]
                have hvals : '!' ∉ strip rhs := fun hm => hr (mem_strip hm)
                intro s hs
                split at hs
                · rcases List.mem_map.1 hs with ⟨p, hp, hsp⟩
                  intro hm
                  rw [← hsp] at hm
                  exact hvals (mem_of_mem_splitOn hp (mem_strip hm))
                · have hs2 := List.mem_singleton.1 hs
                  subst hs2
                  exact hvals
          · left; cases h; rfl

end NamelistGUI

namespace NamelistGUI

/-! ## Dictionary lemmas -/

theorem mem_dictInsert {d : Document} {nml g : Namelist}
    (h : g ∈ dictInsert d nml) : g ∈ d ∨ g = nml := by
  induction d with
  | nil => simp [dictInsert] at h; simp [h]
  | cons x t ih =>
    rw [dictInsert] at h
    split at h
    · rcases List.mem_cons.1 h with h1 | h2
      · simp [h1]
      · simp [List.mem_cons, h2]
    · rcases List.mem_cons.1 h with h1 | h2
      · simp [h1]
      · rcases ih h2 with h3 | h4
        · simp [List.mem_cons, h3]
        · simp [h4]

theorem mem_dictModify {d : Document} {k : Str} {f : Namelist → Namelist} {g : Namelist}
    (h : g ∈ dictModify k f d) : g ∈ d ∨ ∃ g0 ∈ d, g = f g0 := by
  induction d with
  | nil => simp [dictModify] at h
  | cons x t ih =>
    rw [dictModify] at h
    split at h
    · rcases List.mem_cons.1 h with h1 | h2
      · right; exact ⟨x, by simp, h1⟩
      · simp [List.mem_cons, h2]
    · rcases List.mem_cons.1 h with h1 | h2
      · simp [h1]
      · rcases ih h2 with h3 | ⟨g0, hg0, hf⟩
        · simp [List.mem_cons, h3]
        · right; exact ⟨g0, by simp [List.mem_cons, hg0], hf⟩

theorem mem_replaceFirstVar {vs : List Variable} {var v : Variable}
    (h : v ∈ replaceFirstVar var vs) : v ∈ vs ∨ v = var := by
  induction vs with
  | nil => simp [replaceFirstVar] at h
  | cons x t ih =>
    rw [replaceFirstVar] at h
    split at h
    · rcases List.mem_cons.1 h with h1 | h2
      · simp [h1]
      · simp [List.mem_cons, h2]
    · rcases List.mem_cons.1 h with h1 | h2
      · simp [h1]
      · rcases ih h2 with h3 | h4
        · simp [List.mem_cons, h3]
        · simp [h4]

theorem mem_addVariable {g : Namelist} {var v : Variable} {m : Bool}
    (h : v ∈ (addVariable g var m).vars) : v ∈ g.vars ∨ v = var := by
  unfold addVariable at h
  split at h
  · exact mem_replaceFirstVar h
  · rcases List.mem_append.1 h with h1 | h2
    · simp [h1]
    · simp at h2; simp [h2]

theorem addVariable_name (g : Namelist) (var : Variable) (m : Bool) :
    (addVariable g var m).name = g.name := by
  unfold addVariable
  split <;> rfl

theorem keys_dictModify {d : Document} {k : Str} {f : Namelist → Namelist}
    (hf : ∀ g, (f g).name = g.name) :
    (dictModify k f d).map (·.name) = d.map (·.name) := by
  induction d with
  | nil => rfl
  | cons x t ih =>
    rw [dictModify]
    split
    · simp [hf]
    · simp [ih]

theorem keys_dictInsert (d : Document) (nml : Namelist) :
    (dictInsert d nml).map (·.name) =
      if nml.name ∈ d.map (·.name) then d.map (·.name)
      else d.map (·.name) ++ [nml.name] := by
  induction d with
  | nil => simp [dictInsert]
  | cons x t ih =>
    rw [dictInsert]
    by_cases hx : x.name = nml.name
    · simp [hx]
    · rw [if_neg hx]
      by_cases hm : nml.name ∈ t.map (·.name)
      · simp [hm, ih, Ne.symm hx]
      · simp [hm, ih, Ne.symm hx]

theorem nodup_keys_dictInsert {d : Document} (nml : Namelist)
    (h : (d.map (·.name)).Nodup) : ((dictInsert d nml).map (·.name)).Nodup := by
  rw [keys_dictInsert]
  split
  · exact h
  · next hm => simp [List.nodup_append, h, hm]

/-! ## Invariants of `InputFile.read` -/

theorem readLines_inv (P : Document → Prop)
    (hstep : ∀ st st' l, readLine st l = .ok st' → P st.nmls → P st'.nmls) :
    ∀ (lines : List Str) (st st' : PState),
      readLines lines st = .ok st' → P st.nmls → P st'.nmls := by
  intro lines
  induction lines with
  | nil =>
    intro st st' h hp
    rw [readLines] at h
    injection h with h2
    rwa [← h2]
  | cons l rest ih =>
    intro st st' h hp
    rw [readLines] at h
    cases heq : readLine st l with
    | error e => rw [heq] at h; exact absurd h (by simp)
    | ok st1 =>
      rw [heq] at h
      exact ih st1 st' h (hstep st st1 l heq hp)

theorem step_nodup : ∀ (st st' : PState) (l : Str), readLine st l = .ok st' →
    (st.nmls.map (·.name)).Nodup → (st'.nmls.map (·.name)).Nodup := by
  intro st st' l h hp
  rcases readLine_shape h with hs | ⟨name, _, hs⟩ | ⟨key, var, _, hs⟩
  · rwa [hs]
  · rw [hs]; exact nodup_keys_dictInsert _ hp
  · rw [hs, keys_dictModify (fun g => addVariable_name g var true)]; exact hp

theorem step_noBang : ∀ (st st' : PState) (l : Str), readLine st l = .ok st' →
    (∀ g ∈ st.nmls, ∀ v ∈ g.vars, '!' ∉ v.name ∧ ∀ s ∈ v.value, '!' ∉ s) →
    (∀ g ∈ st'.nmls, ∀ v ∈ g.vars, '!' ∉ v.name ∧ ∀ s ∈ v.value, '!' ∉ s) := by
  intro st st' l h hp
  rcases readLine_shape h with hs | ⟨name, _, hs⟩ | ⟨key, var, hvar, hs⟩
  · rwa [hs]
  · rw [hs]
    intro g hg v hv
    rcases mem_dictInsert hg with h1 | h2
    · exact hp g h1 v hv
    · rw [h2] at hv
      simp [mkNamelist] at hv
  · rw [hs]
    intro g hg v hv
    rcases mem_dictModify hg with h1 | ⟨g0, hg0, hf⟩
    · exact hp g h1 v hv
    · rw [hf] at hv
      rcases mem_addVariable hv with h1 | h2
      · exact hp g0 hg0 v h1
      · rw [h2]; exact hvar

/-! ## C9: comment markers inside quoted values -/

/-- **C9 (amended).**  The comment strip of `InputFile.read` is not
quote-aware: the first `!` on a field line begins the trailing comment
even inside a quoted string literal, so a quoted value containing `!`
is truncated; consequently no parsed variable name or value ever
contains the comment marker. -/
theorem C9_comment_quotes_amended :
    (parseDoc ["&g".toList, " x = 'a!b'".toList, ['/']] =
      .ok [⟨['g'], [⟨['x'], [['\'', 'a']]⟩]⟩]) ∧
    (∀ (lines : List Str) (d : Document), parseDoc lines = .ok d →
      ∀ g ∈ d, ∀ v ∈ g.vars, '!' ∉ v.name ∧ ∀ s ∈ v.value, '!' ∉ s) := by
  constructor
  · decide
  · intro lines d h
    unfold parseDoc at h
    cases heq : readLines lines ⟨[], false, none⟩ with
    | error e => rw [heq] at h; exact absurd h (by simp [Except.map])
    | ok st =>
      rw [heq] at h
      simp only [Except.map] at h
      have hinv := readLines_inv
        (fun nmls => ∀ g ∈ nmls, ∀ v ∈ g.vars, '!' ∉ v.name ∧ ∀ s ∈ v.value, '!' ∉ s)
        step_noBang lines ⟨[], false, none⟩ st heq (by simp)
      injection h with h2
      rw [← h2]
      exact hinv

/-- **C9 witness.** -/
theorem C9_comment_quotes_witness :
    '!' ∉ (['x'] : Str) ∧ ∀ s ∈ [(['\'', 'a'] : Str)], '!' ∉ s :=
  C9_comment_quotes_amended.2 ["&g".toList, " x = 'a!b'".toList, ['/']]
    [⟨['g'], [⟨['x'], [['\'', 'a']]⟩]⟩] (by decide)
    ⟨['g'], [⟨['x'], [['\'', 'a']]⟩]⟩ (by simp)
    ⟨['x'], [['\'', 'a']]⟩ (by simp)

/-- **C9 counterexample.**  The quoted value `'a!b'` is claimed to
survive parsing intact; it is instead truncated at the `!`. -/
theorem C9_comment_quotes_counterexample :
    parseDoc ["&g".toList, " x = 'a!b'".toList, ['/']] ≠
      .ok [⟨['g'], [⟨['x'], ["'a!b'".toList]⟩]⟩] ∧
    parseDoc ["&g".toList, " x = 'a!b'".toList, ['/']] =
      .ok [⟨['g'], [⟨['x'], [['\'', 'a']]⟩]⟩] := by decide

/-! ## C10: duplicate group names during parse -/

/-- **C10 (confirmed).**  Re-assigning an existing key of the ordered
namelist dictionary replaces that entry with the fresh empty namelist
while keeping its position (all previously parsed variables of the
group are discarded), and every successfully parsed document has
pairwise-distinct group names. -/
theorem C10_duplicate_group :
    (∀ (pre post : Document) (g : Namelist) (name : Str),
      name = g.name → lower name = name → g.name ∉ pre.map (·.name) →
      dictInsert (pre ++ g :: post) (mkNamelist name) = pre ++ ⟨g.name, []⟩ :: post) ∧
    (∀ (lines : List Str) (d : Document), parseDoc lines = .ok d →
      (d.map (·.name)).Nodup) := by
  constructor
  · intro pre post g name h1 h2 h3
    subst h1
    induction pre with
    | nil =>
      rw [List.nil_append, dictInsert,
        if_pos (show g.name = (mkNamelist g.name).name by simp [mkNamelist, h2])]
      simp [mkNamelist, h2]
    | cons p t ih =>
      have h3' : ¬ g.name = p.name ∧ g.name ∉ t.map (·.name) := by simpa using h3
      rw [List.cons_append, dictInsert,
        if_neg (show ¬ p.name = (mkNamelist g.name).name by
          simp [mkNamelist, h2]
          exact fun hc => h3'.1 hc.symm),
        ih h3'.2]
      simp
  · intro lines d h
    unfold parseDoc at h
    cases heq : readLines lines ⟨[], false, none⟩ with
    | error e => rw [heq] at h; exact absurd h (by simp [Except.map])
    | ok st =>
      rw [heq] at h
      simp only [Except.map] at h
      have hinv := readLines_inv (fun nmls => (nmls.map (·.name)).Nodup)
        step_nodup lines ⟨[], false, none⟩ st heq (by simp)
      injection h with h2
      rw [← h2]
      exact hinv

/-- **C10 witness.** -/
theorem C10_duplicate_group_witness :
    dictInsert ([] ++ (⟨['g'], [⟨['x'], [['1']]⟩]⟩ : Namelist) :: []) (mkNamelist ['g']) =
      [] ++ (⟨['g'], []⟩ : Namelist) :: [] ∧
    (([⟨['g'], []⟩] : Document).map (·.name)).Nodup :=
  ⟨C10_duplicate_group.1 [] [] ⟨['g'], [⟨['x'], [['1']]⟩]⟩ ['g'] (by decide) (by decide)
      (by decide),
   C10_duplicate_group.2 ["&g".toList, " x = 1".toList, "&g".toList, ['/']] [⟨['g'], []⟩]
      (by decide)⟩

end NamelistGUI

namespace NamelistGUI

/-! ## C6: the formula sanitizer -/

theorem takeWhile_ne_eq_take_indexOf (c : Char) (l : Str) :
    l.takeWhile (fun x => x ≠ c) = l.take (l.indexOf c) :=
  (take_indexOf_eq_takeWhile c l).symm

theorem length_takeWhile_ne (c : Char) (l : Str) :
    (l.takeWhile (fun x => x ≠ c)).length = min (l.indexOf c) l.length := by
  rw [takeWhile_ne_eq_take_indexOf, List.length_take]

theorem reverse_take_reverse (l : Str) (n : Nat) :
    (l.reverse.take n).reverse = l.drop (l.length - n) := by
  rw [List.take_reverse]
  simp

/-- **C6 (amended).**  On every fragment that contains at least one
`$`, `_ensure_texable`'s entry repair agrees exactly with the
specification's contract: an odd `$` count gets a trailing `$`
appended, and unless the trimmed result both starts and ends with `$`,
the prefix before the first `$` and the suffix after the last `$` are
escaped by `_detexify` while the math body between the delimiters is
returned untouched.  (On fragments with no `$` at all the negative
`find`/`rfind` results make the code behave differently; see the
counterexample.) -/
theorem C6_sanitizer_amended (entry : Str) (hm : '$' ∈ entry) :
    fixTexEntry entry = specSanitize entry := by
  unfold fixTexEntry specSanitize
  simp only []
  set e := (if entry.count '$' % 2 = 1 then entry ++ ['$'] else entry) with he
  have hme : '$' ∈ e := by
    rw [he]
    split
    · exact List.mem_append.2 (Or.inl hm)
    · exact hm
  have hmr : '$' ∈ e.reverse := List.mem_reverse.2 hme
  have hli : e.indexOf '$' < e.length := List.indexOf_lt_length.2 hme
  have hri : e.reverse.indexOf '$' < e.length := by
    have := List.indexOf_lt_length.2 hmr
    simpa using this
  split
  · rfl
  · have hfind : pyFindChar e '$' = (e.indexOf '$' : Int) := by
      simp [pyFindChar, hme]
    have hrfind : pyRfindChar e '$' = (e.length : Int) - 1 - (e.reverse.indexOf '$' : Int) := by
      simp [pyRfindChar, hme]
    have hslice0 : sliceIdx e.length 0 = 0 := by simp [sliceIdx]
    have hsliceL : sliceIdx e.length (e.indexOf '$' : Int) = e.indexOf '$' := by
      simp [sliceIdx]
      omega
    have hsliceR : sliceIdx e.length ((e.length : Int) - 1 - (e.reverse.indexOf '$' : Int) + 1) =
        e.length - e.reverse.indexOf '$' := by
      simp only [sliceIdx]
      rw [if_neg (by omega)]
      omega
    have hsliceN : sliceIdx e.length (e.length : Int) = e.length := by
      simp only [sliceIdx]
      rw [if_neg (by omega)]
      simp
    -- the three slices
    have h1 : pySlice e 0 (pyFindChar e '$') = e.takeWhile (fun x => x ≠ '$') := by
      rw [hfind]
      unfold pySlice
      rw [hslice0, hsliceL, List.drop_zero]
      exact (takeWhile_ne_eq_take_indexOf '$' e).symm
    have h2 : pySlice e (pyRfindChar e '$' + 1) (e.length : Int) =
        (e.reverse.takeWhile (fun x => x ≠ '$')).reverse := by
      rw [hrfind]
      unfold pySlice
      rw [hsliceR, hsliceN, List.take_length]
      rw [takeWhile_ne_eq_take_indexOf '$' e.reverse, reverse_take_reverse]
    have h3 : pySlice e (pyFindChar e '$') (pyRfindChar e '$' + 1) =
        (e.drop (e.takeWhile (fun x => x ≠ '$')).length).take
          (e.length - (e.takeWhile (fun x => x ≠ '$')).length -
            ((e.reverse.takeWhile (fun x => x ≠ '$')).reverse).length) := by
      rw [hfind, hrfind]
      unfold pySlice
      rw [hsliceL, hsliceR, List.drop_take]
      have hlen1 : (e.takeWhile (fun x => x ≠ '$')).length = e.indexOf '$' := by
        rw [length_takeWhile_ne]
        omega
      have hlen2 : ((e.reverse.takeWhile (fun x => x ≠ '$')).reverse).length =
          e.reverse.indexOf '$' := by
        rw [List.length_reverse, length_takeWhile_ne]
        simp only [List.length_reverse]
        omega
      rw [hlen1, hlen2]
      congr 1
      omega
    rw [h1, h2, h3]

/-- **C6 witness.** -/
theorem C6_sanitizer_witness :
    fixTexEntry "a_b $x^2$ c^d".toList = specSanitize "a_b $x^2$ c^d".toList :=
  C6_sanitizer_amended "a_b $x^2$ c^d".toList (by decide)

/-- **C6 counterexample.**  On a fragment with no `$` at all (an even
count, so no repair happens), `find` and `rfind` both return `-1` and
the negative slices drop the last character from the prefix while
duplicating the whole fragment as the suffix: the output
`a\_a\_b` is not `detexify p ++ m ++ detexify s` for *any*
decomposition `p ++ m ++ s` of the fragment `a_b`, so no reading of
"escape prefix and suffix, keep the body untouched" matches the code. -/
theorem C6_sanitizer_counterexample :
    fixTexEntry "a_b".toList = "a\\_a\\_b".toList ∧
    ((splits3 "a_b".toList).all
      (fun t => !(decide (fixTexEntry "a_b".toList =
        detexify t.1 ++ t.2.1 ++ detexify t.2.2)))) = true := by decide

end NamelistGUI

namespace NamelistGUI

/-! ## C7: classifier output shape -/

theorem insertSorted_perm (q : Quantity) (l : List Quantity) :
    (insertSorted q l).Perm (q :: l) := by
  induction l with
  | nil => rfl
  | cons x t ih =>
    rw [insertSorted]
    split
    · exact ((ih.cons x).trans (List.Perm.swap q x t)).symm.symm
    · exact List.Perm.refl _

theorem insertSorted_sorted (q : Quantity) {l : List Quantity}
    (h : l.Sorted (fun a b => a.code ≤ b.code)) :
    (insertSorted q l).Sorted (fun a b => a.code ≤ b.code) := by
  induction l with
  | nil => simp [insertSorted]
  | cons x t ih =>
    rw [insertSorted]
    rw [List.sorted_cons] at h
    split
    · next hle =>
      rw [List.sorted_cons]
      refine ⟨?_, ih h.2⟩
      intro b hb
      rcases List.mem_cons.1 ((insertSorted_perm q t).mem_iff.1 hb) with h1 | h2
      · rw [h1]; exact hle
      · exact h.1 b h2
    · next hgt =>
      rw [List.sorted_cons]
      refine ⟨?_, List.sorted_cons.2 h⟩
      intro b hb
      rcases List.mem_cons.1 hb with h1 | h2
      · rw [h1]; omega
      · exact le_trans (by omega) (h.1 b h2)

theorem sortByCode_perm (l : List Quantity) : (sortByCode l).Perm l := by
  suffices h : ∀ (l acc : List Quantity),
      (l.foldl (fun acc q => insertSorted q acc) acc).Perm (acc ++ l) by
    simpa using h l []
  intro l
  induction l with
  | nil => intro acc; simp
  | cons q t ih =>
    intro acc
    rw [List.foldl_cons]
    refine (ih (insertSorted q acc)).trans ?_
    refine (((insertSorted_perm q acc).append_right t).trans ?_)
    have : (q :: acc).Perm (acc ++ [q]) := by
      simpa using (@List.perm_append_comm _ [q] acc)
    refine (this.append_right t).trans ?_
    simp

theorem sortByCode_sorted (l : List Quantity) :
    (sortByCode l).Sorted (fun a b => a.code ≤ b.code) := by
  suffices h : ∀ (l acc : List Quantity),
      acc.Sorted (fun a b => a.code ≤ b.code) →
      (l.foldl (fun acc q => insertSorted q acc) acc).Sorted (fun a b => a.code ≤ b.code) by
    exact h l [] (by simp)
  intro l
  induction l with
  | nil => intro acc h; simpa using h
  | cons q t ih =>
    intro acc h
    rw [List.foldl_cons]
    exact ih _ (insertSorted_sorted q h)

theorem mem_dtInsert {dt : DiagTypes} {k : Str} {v : List Quantity} {kv : Str × List Quantity}
    (h : kv ∈ dtInsert dt k v) : kv ∈ dt ∨ kv = (k, v) := by
  induction dt with
  | nil => simp [dtInsert] at h; simp [h]
  | cons x t ih =>
    obtain ⟨xk, xv⟩ := x
    rw [dtInsert] at h
    split at h
    · rcases List.mem_cons.1 h with h1 | h2
      · simp [h1]
      · simp [List.mem_cons, h2]
    · rcases List.mem_cons.1 h with h1 | h2
      · simp [h1]
      · rcases ih h2 with h3 | h4
        · simp [List.mem_cons, h3]
        · simp [h4]

theorem lookup_mem {dt : DiagTypes} {k : Str} {v : List Quantity}
    (h : dt.lookup k = some v) : (k, v) ∈ dt := by
  induction dt with
  | nil => simp at h
  | cons x t ih =>
    obtain ⟨xk, xv⟩ := x
    rw [List.lookup_cons] at h
    by_cases hk : k = xk
    · simp [hk] at h
      simp [hk, h]
    · have hbe : (k == xk) = false := by simp [hk]
      rw [hbe] at h
      simp [List.mem_cons, ih h]

/-- The invariant carried through the per-file classification loop. -/
def DTInv (quantities : List Quantity) (dt : DiagTypes) : Prop :=
  ∀ kv ∈ dt, (kv.2.map (·.name)).Nodup ∧ ∀ q ∈ kv.2, q ∈ quantities

theorem toAdd_mem_names {quantities : List Quantity} {qnames quantityNames : List Str} :
    ∀ (l : List Str) (Q : Quantity),
      Q ∈ l.filterMap (fun q =>
        if q ∉ quantityNames then none
        else if q ∈ qnames then none
        else quantities.find? (fun Q => Q.name = q)) →
      Q.name ∈ l ∧ Q.name ∉ qnames ∧ Q ∈ quantities := by
  intro l
  induction l with
  | nil => intro Q h; simp at h
  | cons q t ih =>
    intro Q h
    rw [List.filterMap_cons] at h
    by_cases h1 : q ∉ quantityNames
    · rw [if_pos h1] at h
      rcases ih Q h with ⟨ha, hb, hc⟩
      exact ⟨List.mem_cons.2 (Or.inr ha), hb, hc⟩
    · rw [if_neg h1] at h
      by_cases h2 : q ∈ qnames
      · rw [if_pos h2] at h
        rcases ih Q h with ⟨ha, hb, hc⟩
        exact ⟨List.mem_cons.2 (Or.inr ha), hb, hc⟩
      · rw [if_neg h2] at h
        cases heq : quantities.find? (fun Q => Q.name = q) with
        | none =>
          rw [heq] at h
          rcases ih Q h with ⟨ha, hb, hc⟩
          exact ⟨List.mem_cons.2 (Or.inr ha), hb, hc⟩
        | some Q0 =>
          rw [heq] at h
          rcases List.mem_cons.1 h with hh | hh
          · subst hh
            have hname : Q.name = q := by simpa using List.find?_some heq
            exact ⟨by simp [hname], hname ▸ h2, List.mem_of_find?_eq_some heq⟩
          · rcases ih Q hh with ⟨ha, hb, hc⟩
            exact ⟨List.mem_cons.2 (Or.inr ha), hb, hc⟩

theorem toAdd_nodup {quantities : List Quantity} {qnames quantityNames : List Str} :
    ∀ (l : List Str), l.Nodup →
      ((l.filterMap (fun q =>
        if q ∉ quantityNames then none
        else if q ∈ qnames then none
        else quantities.find? (fun Q => Q.name = q))).map (·.name)).Nodup := by
  intro l
  induction l with
  | nil => intro _; simp
  | cons q t ih =>
    intro hnd
    rw [List.filterMap_cons]
    rcases List.nodup_cons.1 hnd with ⟨hq, ht⟩
    cases heq2 : (if q ∉ quantityNames then none
        else if q ∈ qnames then none
        else quantities.find? (fun Q => Q.name = q)) with
    | none => exact ih ht
    | some Q0 =>
      have hname : Q0.name = q := by
        by_cases h1 : q ∉ quantityNames
        · rw [if_pos h1] at heq2; exact absurd heq2 (by simp)
        · rw [if_neg h1] at heq2
          by_cases h2 : q ∈ qnames
          · rw [if_pos h2] at heq2; exact absurd heq2 (by simp)
          · rw [if_neg h2] at heq2
            simpa using List.find?_some heq2
      rw [List.map_cons, List.nodup_cons]
      refine ⟨?_, ih ht⟩
      intro hmem
      rcases List.mem_map.1 hmem with ⟨Q1, hQ1, hQn⟩
      have := (@toAdd_mem_names quantities qnames quantityNames t Q1 hQ1).1
      rw [hQn, hname] at this
      exact hq this

theorem processDiagFile_inv {quantities : List Quantity} {dt dt' : DiagTypes}
    {f : Str × List Str} (h : processDiagFile quantities dt f = .ok dt')
    (hinv : DTInv quantities dt) : DTInv quantities dt' := by
  unfold processDiagFile at h
  cases heq : splitFirst '_' f.1 with
  | none => rw [heq] at h; exact absurd h (by simp)
  | some p =>
    obtain ⟨pre, restName⟩ := p
    rw [heq] at h
    simp only [Except.ok.injEq] at h
    subst h
    -- the intermediate table with the (possibly fresh) category key
    set diagType := restName.take (restName.length - 4) with hdt
    set dt1 := if (dt.lookup diagType).isSome then dt
      else dtInsert dt diagType [] with hdt1
    have hinv1 : DTInv quantities dt1 := by
      rw [hdt1]
      split
      · exact hinv
      · intro kv hkv
        rcases mem_dtInsert hkv with h1 | h2
        · exact hinv kv h1
        · rw [h2]; simp
    have hex : ∀ ex, dt1.lookup diagType = some ex →
        (ex.map (·.name)).Nodup ∧ ∀ q ∈ ex, q ∈ quantities := by
      intro ex hlk
      exact hinv1 (diagType, ex) (lookup_mem hlk)
    intro kv hkv
    rcases mem_dtInsert hkv with h1 | h2
    · exact hinv1 kv h1
    · rw [h2]
      constructor
      · -- names of existing ++ toAdd are pairwise distinct
        simp only [List.map_append]
        rw [List.nodup_append]
        refine ⟨?_, ?_, ?_⟩
        · cases hlk : dt1.lookup diagType with
          | none => simp [hlk]
          | some ex => simpa [hlk] using (hex ex hlk).1
        · exact toAdd_nodup _ (List.nodup_dedup _)
        · intro a ha
          cases hlk : dt1.lookup diagType with
          | none => simp [hlk] at ha
          | some ex =>
            rw [hlk] at ha
            intro hb
            rcases List.mem_map.1 hb with ⟨Q1, hQ1, hQn⟩
            have hq := (toAdd_mem_names _ Q1 hQ1).2.1
            rw [hQn] at hq
            exact hq (by simpa [hlk] using ha)
      · intro q hq
        rcases List.mem_append.1 hq with h3 | h4
        · cases hlk : dt1.lookup diagType with
          | none => simp [hlk] at h3
          | some ex => exact (hex ex hlk).2 q (by simpa [hlk] using h3)
        · exact (toAdd_mem_names _ q h4).2.2

theorem foldlM_inv {quantities : List Quantity} :
    ∀ (files : List (Str × List Str)) (dt dt' : DiagTypes),
      files.foldlM (processDiagFile quantities) dt = .ok dt' →
      DTInv quantities dt → DTInv quantities dt' := by
  intro files
  induction files with
  | nil =>
    intro dt dt' h hi
    injection h with h2
    rwa [← h2]
  | cons f t ih =>
    intro dt dt' h hi
    rw [List.foldlM_cons] at h
    cases heq : processDiagFile quantities dt f with
    | error e => rw [heq] at h; exact absurd h (by simp [Bind.bind, Except.bind])
    | ok dt1 =>
      rw [heq] at h
      simp only [Bind.bind, Except.bind] at h
      exact ih dt1 dt' h (processDiagFile_inv heq hi)

/-- **C7 (amended).**  Every category present in the classifier result
maps to a non-empty sequence of Quantity records drawn from the
catalog, sorted ascending by code and deduplicated *by name* (the
lookups and the per-category merge all key on the variable name, so two
catalog entries that share a code under different names can both
appear; see the counterexample). -/
theorem C7_classifier_amended (quantities : List Quantity)
    (listing : List (Str × List Str)) (res : DiagTypes)
    (h : parseDiagnosticFiles quantities listing = .ok res) :
    ∀ k l, (k, l) ∈ res →
      l ≠ [] ∧ l.Sorted (fun a b => a.code ≤ b.code) ∧
      (l.map (·.name)).Nodup ∧ ∀ q ∈ l, q ∈ quantities := by
  unfold parseDiagnosticFiles at h
  cases heq : (removeIgnored
      (listing.filter (fun f =>
        containsSub ['d','i','a','g','n','o','s','t','i','c','s'] (lower f.1)))).foldlM
      (processDiagFile quantities) [] with
  | error e =>
    rw [heq] at h
    exact absurd h (by simp [Except.bind])
  | ok dt =>
    rw [heq] at h
    simp only [Except.bind, Except.ok.injEq] at h
    subst h
    have hinv : DTInv quantities dt :=
      foldlM_inv _ [] dt heq (by intro kv hkv; simp at hkv)
    intro k l hkl
    rcases List.mem_map.1 hkl with ⟨kv, hkv, hmap⟩
    have hkv2 := List.mem_filter.1 hkv
    have hprops := hinv kv hkv2.1
    have hk : k = kv.1 := by
      have := congrArg Prod.fst hmap
      simpa using this.symm
    have hl : l = sortByCode kv.2 := by
      have := congrArg Prod.snd hmap
      simpa using this.symm
    subst hl
    have hperm := sortByCode_perm kv.2
    refine ⟨?_, sortByCode_sorted kv.2, ?_, ?_⟩
    · intro hnil
      have hlen : kv.2.length = 0 := by
        have := hperm.length_eq
        rw [hnil] at this
        simpa using this.symm
      have := hkv2.2
      simp [hlen] at this
    · exact ((hperm.map (·.name)).nodup_iff).2 hprops.1
    · intro q hq
      exact hprops.2 q (hperm.mem_iff.1 hq)

/-- **C7 witness.** -/
theorem C7_classifier_witness :
    ([⟨5, ['a'], []⟩] : List Quantity) ≠ [] ∧
    ([⟨5, ['a'], []⟩] : List Quantity).Sorted (fun a b => a.code ≤ b.code) ∧
    ((([⟨5, ['a'], []⟩] : List Quantity)).map (·.name)).Nodup ∧
    ∀ q ∈ ([⟨5, ['a'], []⟩] : List Quantity), q ∈ [mkQuantity 5 ['a'] []] :=
  C7_classifier_amended [mkQuantity 5 ['a'] []]
    [("diagnostics_custom.f90".toList, ["y = compute_quantity(a)".toList])]
    [("custom".toList, [⟨5, ['a'], []⟩])] (by decide)
    "custom".toList [⟨5, ['a'], []⟩] (by simp)

/-- **C7 counterexample.**  Deduplication is by *name*, not by code:
two catalog quantities sharing code 5 under different names are both
kept in the category's list, which therefore contains code 5 twice. -/
theorem C7_classifier_counterexample :
    parseDiagnosticFiles
      [mkQuantity 5 ['a'] [], mkQuantity 5 ['b'] []]
      [("diagnostics_custom.f90".toList,
        ["y = compute_quantity(a) + compute_quantity(b)".toList])] =
      .ok [("custom".toList, [⟨5, ['a'], []⟩, ⟨5, ['b'], []⟩])] ∧
    ¬ (([⟨5, ['a'], []⟩, ⟨5, ['b'], []⟩] : List Quantity).map (·.code)).Nodup := by
  constructor
  · decide
  · decide

end NamelistGUI

namespace NamelistGUI

/-! ## String lemmas for the round-trip proof -/

theorem dropWhile_eq_self_cons {p : Char → Bool} {x : Char} {t : Str}
    (h : List.dropWhile p (x :: t) = x :: t) : p x = false := by
  by_contra hp2
  have hpx : p x = true := by simpa using hp2
  rw [List.dropWhile_cons, if_pos hpx] at h
  have hle := (List.dropWhile_suffix (l := t) p).length_le
  rw [h] at hle
  simp at hle

theorem dropWhile_app_self {p : Char → Bool} {a b : Str}
    (h : a.dropWhile p = a) (ha : a ≠ []) : (a ++ b).dropWhile p = a ++ b := by
  cases a with
  | nil => exact absurd rfl ha
  | cons x t =>
    have hp : p x = false := dropWhile_eq_self_cons h
    simp [List.dropWhile_cons, hp]

theorem lstrip_append {a b : Str} (h : lstrip a = a) (ha : a ≠ []) :
    lstrip (a ++ b) = a ++ b :=
  dropWhile_app_self h ha

theorem lstrip_cons_nonspace {c : Char} {t : Str} (hc : pySpace c = false) :
    lstrip (c :: t) = c :: t := by
  simp [lstrip, List.dropWhile_cons, hc]

theorem rstrip_reverse_eq {b : Str} (h : rstrip b = b) :
    b.reverse.dropWhile pySpace = b.reverse := by
  unfold rstrip at h
  have := congrArg List.reverse h
  simpa using this

theorem rstrip_append {a b : Str} (h : rstrip b = b) (hb : b ≠ []) :
    rstrip (a ++ b) = a ++ b := by
  unfold rstrip
  rw [List.reverse_append]
  rw [dropWhile_app_self (rstrip_reverse_eq h) (by simpa using hb)]
  simp

theorem rstrip_append_space {a : Str} {c : Char} (hc : pySpace c = true) :
    rstrip (a ++ [c]) = rstrip a := by
  unfold rstrip
  rw [List.reverse_append]
  simp [List.dropWhile_cons, hc]

theorem rstrip_cons {c : Char} {t : Str} (h : rstrip t = t) (hc : pySpace c = false) :
    rstrip (c :: t) = c :: t := by
  cases t with
  | nil => simp [rstrip, List.dropWhile_cons, hc]
  | cons w t2 => exact rstrip_append (a := [c]) h (by simp)

theorem strip_of_stripInv {s : Str} (h : stripInv s) : strip s = s := by
  unfold strip
  rw [h.1, h.2]

theorem head_not_space {x : Char} {t : Str} (h : lstrip (x :: t) = x :: t) :
    pySpace x = false :=
  dropWhile_eq_self_cons h

theorem joinComma_cons_cons (v w : Str) (t : List Str) :
    joinComma (v :: w :: t) = v ++ ',' :: joinComma (w :: t) := by
  simp [joinComma, List.intercalate, List.intersperse]

theorem joinComma_single (v : Str) : joinComma [v] = v := by
  simp [joinComma, List.intercalate, List.intersperse]

theorem lstrip_joinComma {vs : List Str} (hne : vs ≠ [])
    (h : ∀ v ∈ vs, lstrip v = v) : lstrip (joinComma vs) = joinComma vs := by
  induction vs with
  | nil => exact absurd rfl hne
  | cons v t ih =>
    cases t with
    | nil => rw [joinComma_single]; exact h v (by simp)
    | cons w t2 =>
      rw [joinComma_cons_cons]
      cases hv : v with
      | nil => exact lstrip_cons_nonspace (by decide)
      | cons x xs =>
        rw [← hv]
        exact lstrip_append (h v (by simp)) (by simp [hv])

theorem rstrip_joinComma {vs : List Str} (hne : vs ≠ [])
    (h : ∀ v ∈ vs, rstrip v = v) : rstrip (joinComma vs) = joinComma vs := by
  induction vs with
  | nil => exact absurd rfl hne
  | cons v t ih =>
    cases t with
    | nil => rw [joinComma_single]; exact h v (by simp)
    | cons w t2 =>
      rw [joinComma_cons_cons]
      have hrest : rstrip (',' :: joinComma (w :: t2)) = ',' :: joinComma (w :: t2) :=
        rstrip_cons (ih (by simp) (fun u hu => h u (by simp [hu]))) (by decide)
      exact rstrip_append hrest (by simp)

theorem mem_joinComma {x : Char} : ∀ {vs : List Str},
    x ∈ joinComma vs → x = ',' ∨ ∃ v ∈ vs, x ∈ v := by
  intro vs
  induction vs with
  | nil => intro h; simp [joinComma, List.intercalate, List.intersperse] at h
  | cons v t ih =>
    intro h
    cases t with
    | nil =>
      rw [joinComma_single] at h
      exact Or.inr ⟨v, by simp, h⟩
    | cons w t2 =>
      rw [joinComma_cons_cons] at h
      rcases List.mem_append.1 h with h1 | h2
      · exact Or.inr ⟨v, by simp, h1⟩
      · rcases List.mem_cons.1 h2 with h3 | h4
        · exact Or.inl h3
        · rcases ih h4 with h5 | ⟨u, hu, hxu⟩
          · exact Or.inl h5
          · exact Or.inr ⟨u, by simp [List.mem_cons, hu], hxu⟩

theorem comma_mem_joinComma (v w : Str) (t : List Str) :
    ',' ∈ joinComma (v :: w :: t) := by
  rw [joinComma_cons_cons]
  simp

theorem lower_joinComma {vs : List Str} (h : ∀ v ∈ vs, lower v = v) :
    lower (joinComma vs) = joinComma vs := by
  induction vs with
  | nil => rfl
  | cons v t ih =>
    cases t with
    | nil => rw [joinComma_single]; exact h v (by simp)
    | cons w t2 =>
      rw [joinComma_cons_cons]
      unfold lower
      rw [List.map_append]
      have h1 : lower v = v := h v (by simp)
      have h2 : lower (joinComma (w :: t2)) = joinComma (w :: t2) :=
        ih (fun u hu => h u (by simp [hu]))
      unfold lower at h1 h2
      rw [h1, List.map_cons, h2]
      rfl

theorem splitFirst_append {c : Char} {a b : Str} (h : c ∉ a) :
    splitFirst c (a ++ c :: b) = some (a, b) := by
  induction a with
  | nil => simp [splitFirst]
  | cons x t ih =>
    have hx : ¬ x = c := fun hc => h (by simp [hc])
    rw [List.cons_append, splitFirst, if_neg hx,
      ih (fun hm => h (by simp [hm]))]
    rfl

theorem cutComment_of_not_mem {s : Str} (h : '!' ∉ s) : cutComment s = s := by
  simp [cutComment, h]

end NamelistGUI

namespace NamelistGUI

/-! ## Evaluation of `readLine` on serialized lines -/

theorem readLine_blank (st : PState) : readLine st [] = .ok st := rfl

theorem readLine_close (st : PState) : readLine st ['/'] = .ok ⟨st.nmls, false, none⟩ := rfl

theorem readLine_group (st : PState) {name : Str} (h : cleanTok name) :
    readLine st ('&' :: name) = .ok ⟨dictInsert st.nmls (mkNamelist name), true, some name⟩ := by
  obtain ⟨hlow, ⟨hls, hrs⟩, hbang, hnl, hcr⟩ := h
  have hlsl : lstrip ('&' :: name) = '&' :: name := lstrip_cons_nonspace (by decide)
  have hrsl : rstrip ('&' :: name) = '&' :: name := rstrip_cons hrs (by decide)
  have hstrip : strip ('&' :: name) = '&' :: name := by
    unfold strip
    rw [hlsl, hrsl]
  have hlowl : lower ('&' :: name) = '&' :: name := by
    unfold lower
    rw [List.map_cons]
    unfold lower at hlow
    rw [hlow]
    rfl
  have hcut : cutComment ('&' :: name) = '&' :: name :=
    cutComment_of_not_mem (by
      intro hm
      rcases List.mem_cons.1 hm with h1 | h2
      · exact absurd h1 (by decide)
      · exact hbang h2)
  have hname : strip (('&' :: name).drop 1) = name := by
    simp only [List.drop_succ_cons, List.drop_zero]
    unfold strip
    rw [hls, hrs]
  simp only [readLine, hlsl, hlowl, hcut, hstrip, hname]
  rw [if_neg (show ¬ ('&' :: name = []) by simp)]
  rw [if_neg (show ¬ (pyStarts '!' ('&' :: name) = true) by simp [pyStarts])]
  rw [if_pos (show pyStarts '&' ('&' :: name) = true by simp [pyStarts])]

theorem joinComma_eq_nil {vs : List Str} (hne : vs ≠ []) :
    joinComma vs = [] ↔ vs = [[]] := by
  cases vs with
  | nil => exact absurd rfl hne
  | cons v t =>
    cases t with
    | nil =>
      rw [joinComma_single]
      constructor
      · intro h; rw [h]
      · intro h
        injection h with h1 h2
    | cons w t2 =>
      rw [joinComma_cons_cons]
      constructor
      · intro h; exact absurd h (by simp)
      · intro h; exact absurd h (by simp)

theorem readLine_field (nmls : Document) (key : Str) (v : Variable) (hv : WFVar v) :
    readLine ⟨nmls, true, some key⟩ (' ' :: (v.name ++ (' ' :: '=' :: ' ' :: joinComma v.value))) =
      .ok ⟨dictModify key (fun g => addVariable g v true) nmls, true, some key⟩ := by
  obtain ⟨⟨hlow, ⟨hls, hrs⟩, hbang, hnl, hcr⟩, hne, hnoeq, hamp, hslash, hvne, hvals⟩ := hv
  obtain ⟨c, nt, hvn⟩ : ∃ c nt, v.name = c :: nt := by
    cases hx : v.name with
    | nil => exact absurd hx hne
    | cons a b => exact ⟨a, b, rfl⟩
  have hc_bang : ¬ c = '!' := fun h => hbang (by rw [hvn, h]; exact List.mem_cons_self _ _)
  have hc_amp : ¬ c = '&' := by
    intro h
    rw [hvn, h] at hamp
    simpa [pyStarts] using hamp
  have hc_slash : ¬ c = '/' := by
    intro h
    rw [hvn, h] at hslash
    simpa [pyStarts] using hslash
  have hc_space : pySpace c = false := by
    rw [hvn] at hls
    exact head_not_space hls
  set rhs := joinComma v.value with hrhs
  -- facts about the joined right-hand side
  have hrlstrip : lstrip rhs = rhs :=
    lstrip_joinComma hvne (fun u hu => ((hvals u hu).1.2.1).1)
  have hrrstrip : rstrip rhs = rhs :=
    rstrip_joinComma hvne (fun u hu => ((hvals u hu).1.2.1).2)
  have hrlow : lower rhs = rhs :=
    lower_joinComma (fun u hu => (hvals u hu).1.1)
  have hrbang : '!' ∉ rhs := by
    intro hm
    rcases mem_joinComma hm with h1 | ⟨u, hu, hxu⟩
    · exact absurd h1 (by decide)
    · exact (hvals u hu).1.2.2.1 hxu
  -- the line with the leading indent removed
  set body := v.name ++ (' ' :: '=' :: ' ' :: rhs) with hbody
  set tail := (if rhs = [] then ([] : Str) else ' ' :: rhs) with htail
  have hlsbody : lstrip body = body := by
    rw [hbody, hvn, List.cons_append]
    exact lstrip_cons_nonspace hc_space
  have hlsl : lstrip (' ' :: body) = body := by
    unfold lstrip
    rw [List.dropWhile_cons, if_pos (by decide)]
    exact hlsbody
  have hlowbody : lower body = body := by
    rw [hbody]
    unfold lower
    rw [List.map_append]
    unfold lower at hlow hrlow
    rw [hlow, List.map_cons, List.map_cons, List.map_cons, hrlow]
    rfl
  have hbangbody : '!' ∉ body := by
    rw [hbody]
    intro hm
    rcases List.mem_append.1 hm with h1 | h2
    · exact hbang h1
    · rcases List.mem_cons.1 h2 with h3 | h4
      · exact absurd h3 (by decide)
      · rcases List.mem_cons.1 h4 with h5 | h6
        · exact absurd h5 (by decide)
        · rcases List.mem_cons.1 h6 with h7 | h8
          · exact absurd h7 (by decide)
          · exact hrbang h8
  have hcut : cutComment body = body := cutComment_of_not_mem hbangbody
  have hstripbody : strip body = (v.name ++ [' ']) ++ '=' :: tail := by
    unfold strip
    rw [hlsbody, htail]
    split
    · next hrnil =>
      have h1 : body = (v.name ++ [' ', '=']) ++ [' '] := by
        rw [hbody, hrnil]
        simp
      rw [h1, rstrip_append_space (by decide),
        rstrip_append (a := v.name) (b := [' ', '=']) (by decide) (by decide)]
      simp
    · next hrne =>
      have h1 : body = (v.name ++ [' ', '=', ' ']) ++ rhs := by
        rw [hbody]
        simp
      rw [h1, rstrip_append hrrstrip hrne]
      simp
  have hstripl : strip (' ' :: body) = (v.name ++ [' ']) ++ '=' :: tail := by
    unfold strip
    rw [hlsl]
    unfold strip at hstripbody
    rw [hlsbody] at hstripbody
    exact hstripbody
  have hsplit : splitFirst '=' ((v.name ++ [' ']) ++ '=' :: tail) =
      some (v.name ++ [' '], tail) :=
    splitFirst_append (by
      intro hm
      rcases List.mem_append.1 hm with h1 | h2
      · exact hnoeq h1
      · exact absurd (List.mem_singleton.1 h2) (by decide))
  have hvarname : strip (v.name ++ [' ']) = v.name := by
    unfold strip
    rw [lstrip_append hls hne, rstrip_append_space (by decide), hrs]
  have hvalstr : strip tail = rhs := by
    rw [htail]
    split
    · next hrnil => rw [hrnil]; rfl
    · next hrne =>
      unfold strip lstrip
      rw [List.dropWhile_cons, if_pos (by decide)]
      unfold lstrip at hrlstrip
      rw [hrlstrip, hrrstrip]
  have hvalues : (if ',' ∈ rhs then (rhs.splitOn ',').map strip else [rhs]) = v.value := by
    cases hvv : v.value with
    | nil => exact absurd hvv hvne
    | cons u us =>
      cases us with
      | nil =>
        have hru : rhs = u := by rw [hrhs, hvv, joinComma_single]
        rw [if_neg (by rw [hru]; exact (hvals u (by rw [hvv]; simp)).2), hru]
      | cons w ws =>
        have hcm : ',' ∈ rhs := by
          rw [hrhs, hvv]
          exact comma_mem_joinComma u w ws
        rw [if_pos hcm]
        have hsplit2 : rhs.splitOn ',' = v.value := by
          rw [hrhs]
          have := List.splitOn_intercalate (x := ',') v.value
            (fun l hl => (hvals l hl).2) hvne
          simpa [joinComma] using this
        rw [hsplit2, hvv]
        apply List.map_congr_left ?_ |>.trans (List.map_id _)
        intro u2 hu2
        exact strip_of_stripInv (hvals u2 (by rw [hvv]; exact hu2)).1.2.1
  have hmkvar : mkVariable v.name v.value = v := by
    unfold mkVariable
    cases v
    simp only [Variable.mk.injEq]
    exact ⟨hlow, trivial⟩
  -- evaluate the parser step
  simp only [readLine, hlsl, hlowbody, hcut, hstripl, hstripbody]
  rw [if_neg (show ¬ ((v.name ++ [' ']) ++ '=' :: tail = []) by simp)]
  rw [if_neg (show ¬ (pyStarts '!' body = true) by
    rw [hbody, hvn, List.cons_append]
    simp [pyStarts, hc_bang])]
  rw [if_neg (show ¬ (pyStarts '&' ((v.name ++ [' ']) ++ '=' :: tail) = true) by
    rw [hvn]
    simp [pyStarts, hc_amp])]
  rw [if_neg (show ¬ (pyStarts '/' ((v.name ++ [' ']) ++ '=' :: tail) = true) by
    rw [hvn]
    simp [pyStarts, hc_slash])]
  rw [if_pos trivial]
  rw [hsplit]
  simp only [hvarname, hvalstr, hvalues, hmkvar, Option.getD_some]

end NamelistGUI

namespace NamelistGUI

/-! ## C1: the round trip -/

theorem readLines_cons_ok {st st1 : PState} {l : Str} {rest : List Str}
    (h : readLine st l = .ok st1) :
    readLines (l :: rest) st = readLines rest st1 := by
  rw [readLines, h]

theorem readLines_append_ok {a : List Str} {st st1 : PState} (b : List Str)
    (h : readLines a st = .ok st1) :
    readLines (a ++ b) st = readLines b st1 := by
  induction a generalizing st with
  | nil =>
    rw [readLines] at h
    injection h with h2
    rw [List.nil_append, h2]
  | cons l t ih =>
    rw [readLines] at h
    cases heq : readLine st l with
    | error e => rw [heq] at h; exact absurd h (by simp)
    | ok st2 =>
      rw [heq] at h
      rw [List.cons_append, readLines_cons_ok heq]
      exact ih h

theorem dictInsert_absent {d : Document} {nml : Namelist}
    (h : nml.name ∉ d.map (·.name)) : dictInsert d nml = d ++ [nml] := by
  induction d with
  | nil => rfl
  | cons x t ih =>
    rw [dictInsert, if_neg (by
      intro hc
      exact h (by simp [hc]))]
    rw [List.cons_append, ih (by
      intro hm
      exact h (by simp [List.mem_cons, hm]))]

theorem dictModify_append_last {acc : Document} {key : Str} {vs : List Variable}
    {f : Namelist → Namelist} (hkey : key ∉ acc.map (·.name)) :
    dictModify key f (acc ++ [⟨key, vs⟩]) = acc ++ [f ⟨key, vs⟩] := by
  induction acc with
  | nil => simp [dictModify]
  | cons x t ih =>
    rw [List.cons_append, dictModify, if_neg (by
      intro hc
      exact hkey (by simp [hc]))]
    rw [List.cons_append, ih (by
      intro hm
      exact hkey (by simp [List.mem_cons, hm]))]

theorem addVariable_fresh {k : Str} {vs : List Variable} {var : Variable}
    (h : var.name ∉ vs.map (·.name)) :
    addVariable ⟨k, vs⟩ var true = ⟨k, vs ++ [var]⟩ := by
  unfold addVariable
  rw [if_neg (by simpa using h)]

theorem readLines_fields (key : Str) (acc : Document) (hkey : key ∉ acc.map (·.name)) :
    ∀ (vs done : List Variable),
      (((done ++ vs).map (·.name)).Nodup) →
      (∀ v ∈ vs, WFVar v) →
      readLines (vs.map vline) ⟨acc ++ [⟨key, done⟩], true, some key⟩ =
        .ok ⟨acc ++ [⟨key, done ++ vs⟩], true, some key⟩ := by
  intro vs
  induction vs with
  | nil =>
    intro done _ _
    simp [readLines]
  | cons v t ih =>
    intro done hnd hwf
    have hfresh : v.name ∉ done.map (·.name) := by
      have h4 : ((done.map (·.name)) ++ (v.name :: t.map (·.name))).Nodup := by
        simpa using hnd
      intro hm
      exact (List.nodup_append.1 h4).2.2 hm (by simp)
    have h1 : readLine ⟨acc ++ [⟨key, done⟩], true, some key⟩ (vline v) =
        .ok ⟨acc ++ [⟨key, done ++ [v]⟩], true, some key⟩ := by
      rw [show vline v = ' ' :: (v.name ++ (' ' :: '=' :: ' ' :: joinComma v.value)) from rfl]
      rw [readLine_field _ key v (hwf v (by simp))]
      rw [dictModify_append_last hkey, addVariable_fresh hfresh]
    rw [List.map_cons, readLines_cons_ok h1]
    have hrec := ih (done ++ [v]) (by simpa using hnd) (fun u hu => hwf u (by simp [hu]))
    rw [hrec]
    simp

theorem readLines_group (g : Namelist) (acc : Document) (hwf : WFNml g)
    (hkey : g.name ∉ acc.map (·.name)) :
    readLines (groupLines g) ⟨acc, false, none⟩ = .ok ⟨acc ++ [g], false, none⟩ := by
  obtain ⟨hclean, hnd, hvars⟩ := hwf
  have h1 : readLine ⟨acc, false, none⟩ ('&' :: g.name) =
      .ok ⟨acc ++ [⟨g.name, []⟩], true, some g.name⟩ := by
    rw [readLine_group _ hclean]
    simp only [mkNamelist, hclean.1]
    rw [dictInsert_absent (by simpa using hkey)]
  rw [groupLines, readLines_cons_ok h1]
  rw [readLines_append_ok [['/'], []]
    (readLines_fields g.name acc hkey g.vars [] (by simpa using hnd) hvars)]
  rw [readLines_cons_ok (readLine_close _), readLines_cons_ok (readLine_blank _)]
  rw [readLines]
  rfl

theorem readLines_doc : ∀ (d acc : Document),
    ((acc.map (·.name) ++ d.map (·.name)).Nodup) →
    (∀ g ∈ d, WFNml g) →
    readLines (docLines d) ⟨acc, false, none⟩ = .ok ⟨acc ++ d, false, none⟩ := by
  intro d
  induction d with
  | nil =>
    intro acc _ _
    simp [docLines, readLines]
  | cons g t ih =>
    intro acc hnd hwf
    rw [docLines, List.map_cons, List.flatten_cons]
    rw [readLines_append_ok ((t.map groupLines).flatten)
      (readLines_group g acc (hwf g (by simp)) (by
        have h4 := List.nodup_append.1 (by simpa using hnd)
        intro hm
        exact h4.2.2 hm (by simp)))]
    have hrec := ih (acc ++ [g]) (by simpa using hnd) (fun u hu => hwf u (by simp [hu]))
    rw [docLines] at hrec
    rw [hrec]
    simp

theorem nmlWriteAll_space (d : Document) :
    nmlWriteAll d [' '] =
      .ok (d.map (fun g => ('&' :: g.name) :: (g.vars.map vline ++ [['/']]))) := by
  induction d with
  | nil => rfl
  | cons g t ih =>
    rw [nmlWriteAll, nmlWrite_ok g (by decide), ih]
    simp only [Bind.bind, Except.bind, List.map_cons]
    have hmap : g.vars.map (fun v => [' '] ++ v.name ++ [' ', '=', ' '] ++ joinComma v.value) =
        g.vars.map vline := by
      apply List.map_congr_left
      intro v _
      simp [vline]
    rw [hmap]
    simp

theorem serializeLines_space (d : Document) :
    serializeLines d [' '] = .ok (docLines d) := by
  unfold serializeLines
  rw [nmlWriteAll_space]
  simp only [Bind.bind, Except.bind, Except.ok.injEq]
  unfold docLines
  rw [List.map_map]
  congr 1
  apply List.map_congr_left
  intro g _
  simp [groupLines, Function.comp]

/-- **C1 (amended).**  The round trip holds for every well-formed
document: all group and variable names already lower-case,
whitespace-trimmed, non-empty (variables), free of the comment marker
and line breaks, variable names without `=` and not starting with a
group marker, name-unique groups and variables, and non-empty value
lists of lower-case, trimmed, comma-free values.  For such a document,
serializing with the one-space indent and parsing yields the document
back, group for group, field for field, value for value.  (Values are
*not* case-folded by construction but are lower-cased by the parser, so
documents with upper-case values do not round-trip; see the
counterexample.) -/
theorem C1_roundtrip_amended (d : Document) (h : WFDoc d) :
    (serializeLines d [' ']).bind parseDoc = .ok d := by
  rw [serializeLines_space]
  show parseDoc (docLines d) = .ok d
  unfold parseDoc
  rw [readLines_doc d [] (by simpa using h.1) h.2]
  rfl

/-- **C1 witness.** -/
theorem C1_roundtrip_witness :
    (serializeLines
        [⟨['g'], [⟨['x'], [['a'], ['b']]⟩, ⟨['y'], [[]]⟩]⟩, ⟨['h'], [⟨['z'], [['1']]⟩]⟩]
        [' ']).bind parseDoc =
      .ok [⟨['g'], [⟨['x'], [['a'], ['b']]⟩, ⟨['y'], [[]]⟩]⟩, ⟨['h'], [⟨['z'], [['1']]⟩]⟩] :=
  C1_roundtrip_amended
    [⟨['g'], [⟨['x'], [['a'], ['b']]⟩, ⟨['y'], [[]]⟩]⟩, ⟨['h'], [⟨['z'], [['1']]⟩]⟩]
    (by decide)

/-- **C1 counterexample.**  A document whose value is the upper-case
string `A` serializes to ` x = A` but parses back with the value
lower-cased to `a`: the round trip is not the identity on documents
with upper-case values, because `InputFile.read` lower-cases whole
lines including the value text. -/
theorem C1_roundtrip_counterexample :
    (serializeLines [⟨['g'], [⟨['x'], [['A']]⟩]⟩] [' ']).bind parseDoc =
      .ok [⟨['g'], [⟨['x'], [['a']]⟩]⟩] ∧
    (serializeLines [⟨['g'], [⟨['x'], [['A']]⟩]⟩] [' ']).bind parseDoc ≠
      .ok [⟨['g'], [⟨['x'], [['A']]⟩]⟩] := by decide

end NamelistGUI
